import Mathlib

/-
Verification of the markdown chunk-splitter in
src/knowledge-base-document-preprocessor/tools/knowledge-base-document-preprocessor.py.

The embedding models Python strings as Lean `String` (lists of unicode scalar
characters; `len` is the character count).  Only the ASCII whitespace
characters recognised by Python are modelled (the inputs of interest never
contain the exotic unicode whitespace code points, which behave identically
with respect to every property proved here).

The generator `_split_and_prefix` is modelled in two layers:
  * `process_lines` produces the list of emitted chunks (`Chunk`), each one
    corresponding exactly to one execution of `emit_chunk` in the source:
    the emitted marker string, the emitted content lines, and whether the
    trailing delimiter line was emitted.  The field `via_cut` is ghost
    instrumentation recording whether the chunk was emitted by the
    length-cut `while` loop (line 277 of the source) as opposed to the
    heading boundary (line 236) or the final flush (line 284); it does not
    influence the computation.
  * `renderChunk` maps a chunk to the very lines `emit_chunk` yields, and
    `split_and_prefix' = render of the chunk list` is the modelled output
    line sequence of the generator.
-/

set_option maxRecDepth 10000

namespace KBSplit

/-- ASCII whitespace, the characters Python treats as whitespace in
`str.strip()`, `str.isspace()` and the regex class used by the heading
pattern, restricted to the ASCII range. -/
def isSpaceChar (c : Char) : Bool :=
  c == ' ' || c == '\t' || c == '\n' || c == '\r' || c == '\x0b' || c == '\x0c'

/-- Models `line.strip() == ""`: every character is whitespace. -/
def isBlankLine (line : String) : Bool :=
  line.data.all isSpaceChar

/-- Models `line and not line[0].isspace()` being False because of the head
character: the first character exists and is whitespace. -/
def headIsSpace (line : String) : Bool :=
  match line.data with
  | [] => false
  | c :: _ => isSpaceChar c

/-- Models the Python test `line and not line[0].isspace()`: the line is
non-empty and its first character is not whitespace. -/
def nonIndentLine (line : String) : Bool :=
  !line.data.isEmpty && !headIsSpace line

/-- Drop trailing whitespace characters. -/
def dropTrailingWs (cs : List Char) : List Char :=
  (cs.reverse.dropWhile isSpaceChar).reverse

/-- Models Python `str.strip()` on the character list. -/
def pyStripL (cs : List Char) : List Char :=
  dropTrailingWs (cs.dropWhile isSpaceChar)

/-- Models Python `str.strip()`. -/
def pyStrip (s : String) : String :=
  String.mk (pyStripL s.data)

/-- Sum of the character lengths of a list of lines, models
`sum(len(entry) for entry in chunk_lines)`. -/
def sumLens (ls : List String) : Nat :=
  (ls.map String.length).sum

/-- The chunk delimiter token (source constant `DELIM`). -/
def DELIM : String := "---DIFY-CHUNK---"

/-- Models `HEADING_PATTERN.match(line)` for the anchored regex
`^(#{1,6})\s+(.*)`: a run of one to six `#` characters followed by at least
one whitespace character; group 2 is the rest of the line after the maximal
whitespace run, up to (not including) a newline.  Returns
`some (level, group2)` on a match.  (A run of seven or more `#` cannot
match: backtracking still requires a whitespace after the consumed hashes,
and the next character is another `#`.) -/
def headingMatch (line : String) : Option (Nat × String) :=
  let cs := line.data
  let hashes := cs.takeWhile (fun c => c == '#')
  let level := hashes.length
  let rest := cs.drop level
  if 1 ≤ level ∧ level ≤ 6 then
    match rest with
    | [] => none
    | c :: _ =>
      if isSpaceChar c then
        some (level, String.mk ((rest.dropWhile isSpaceChar).takeWhile (fun c2 => c2 != '\n')))
      else none
  else none

/-- The incoming line is a heading whose level forces a chunk boundary:
`heading_match and len(heading_match.group(1)) <= split_max_level`. -/
def isBoundaryHeading (line : String) (split_max_level : Nat) : Bool :=
  match headingMatch line with
  | some (level, _) => level ≤ split_max_level
  | none => false

/-- Models `text.replace("\\", "\\\\")` (the pattern is a single character,
so the replacement acts independently on each character). -/
def replBackslash : List Char → List Char
  | [] => []
  | c :: rest =>
    if c == '\\' then '\\' :: '\\' :: replBackslash rest
    else c :: replBackslash rest

/-- Models `text.replace('"', '\\"')`. -/
def replQuote : List Char → List Char
  | [] => []
  | c :: rest =>
    if c == '"' then '\\' :: '"' :: replQuote rest
    else c :: replQuote rest

/-- Models the nested `sanitize` helper of `DataPathTracker.current_marker`:
`text.replace("\\", "\\\\").replace('"', '\\"').strip()`. -/
def sanitize (text : String) : String :=
  pyStrip (String.mk (replQuote (replBackslash text.data)))

/-- The segment-list adjustment performed by `current_marker` when the chunk
first line is itself a heading (`segments[: level - 1] + [title]` with the
title stripped); a falsy (empty) first line or a non-heading line leaves the
segments unchanged. -/
def adjustSegments (segments : List String) (first_line : String) : List String :=
  if first_line = "" then segments
  else
    match headingMatch first_line with
    | some (level, title) => segments.take (level - 1) ++ [pyStrip title]
    | none => segments

/-- Models `DataPathTracker.current_marker(first_line)` where `segments` is
the tracker state `self._segments`. -/
def current_marker (segments : List String) (first_line : String) : String :=
  let segs := adjustSegments segments first_line
  let joined := String.intercalate " > " (segs.map (fun seg => "\"" ++ sanitize seg ++ "\""))
  "\x7b data-path = " ++ joined ++ " \x7d"

/-- Models `DataPathTracker.ingest_line(line)`: on a heading match,
`self._segments = self._segments[: level - 1] + [title]` with the title
stripped; otherwise a no-op. -/
def ingest_line (segments : List String) (line : String) : List String :=
  match headingMatch line with
  | none => segments
  | some (level, title) => segments.take (level - 1) ++ [pyStrip title]

/-- Ingest a list of lines in order (the `for chunk_line in lines_chunk`
loop inside `emit_chunk`). -/
def ingestLines (segments : List String) (ls : List String) : List String :=
  ls.foldl ingest_line segments

/-- One emitted chunk: the marker line string, the emitted content lines and
whether the trailing delimiter line was emitted.  `via_cut` is ghost
instrumentation: `true` exactly when the chunk was emitted inside the
length-cut `while` loop. -/
structure Chunk where
  marker : String
  lines : List String
  delim : Bool
  via_cut : Bool
deriving DecidableEq

/-- One output line of the generator, tagged by its role. -/
inductive OutLine where
  | marker (s : String)
  | content (s : String)
  | delim
deriving DecidableEq

/-- The mutable state of `_split_and_prefix` between input lines: the
tracker segment stack plus the current chunk accumulator.  The three index
fields model the Python integers with `-1` represented as `none` (every
assignment in the source stores either `-1` or a list index). -/
structure ChunkState where
  segments : List String
  chunk_lines : List String
  chunk_marker : String
  chunk_content_chars : Nat
  last_blank_idx : Option Nat
  last_heading_idx : Option Nat
  last_nonindent_idx : Option Nat
deriving DecidableEq

/-- Models `emit_chunk(marker, lines_chunk, add_delimiter)`: yields nothing
for an empty chunk, otherwise yields the marker line, the content lines
(ingesting each into the tracker) and, if requested, the delimiter line.
Returns the emitted chunk (as data) together with the updated tracker
segments. -/
def emit_chunk (segments : List String) (marker : String) (lines_chunk : List String)
    (add_delimiter : Bool) (via_cut : Bool) : List Chunk × List String :=
  if lines_chunk.isEmpty then ([], segments)
  else ([⟨marker, lines_chunk, add_delimiter, via_cut⟩], ingestLines segments lines_chunk)

/-- The state after `reset_chunk_state()` (tracker segments preserved). -/
def emptyChunkState (segments : List String) : ChunkState :=
  { segments := segments, chunk_lines := [], chunk_marker := "",
    chunk_content_chars := 0, last_blank_idx := none,
    last_heading_idx := none, last_nonindent_idx := none }

/-- The initial state of `_split_and_prefix`. -/
def initState : ChunkState := emptyChunkState []

/-- The index-scanning `for idx, buf_line in enumerate(chunk_lines)` loop of
`recompute_chunk_metadata`: blank lines record `last_blank_idx` and skip the
rest; for positions after the first, headings within `split_max_level`
record `last_heading_idx` and lines with a non-whitespace first character
record `last_nonindent_idx`. -/
def scanIndices (split_max_level : Nat) : Nat → List String → Option Nat × Option Nat × Option Nat → Option Nat × Option Nat × Option Nat
  | _, [], acc => acc
  | idx, l :: rest, (lb, lh, ln) =>
    if isBlankLine l then
      scanIndices split_max_level (idx + 1) rest (some idx, lh, ln)
    else if 0 < idx then
      let lh' := if isBoundaryHeading l split_max_level then some idx else lh
      let ln' := if nonIndentLine l then some idx else ln
      scanIndices split_max_level (idx + 1) rest (lb, lh', ln')
    else
      scanIndices split_max_level (idx + 1) rest (lb, lh, ln)

/-- Models `recompute_chunk_metadata()` executed after `chunk_lines` has been
replaced by `ls`: recomputes the content character count, the marker (from
the current tracker segments and the new first line) and the three cut-point
indices from scratch. -/
def recompute_chunk_metadata (segments : List String) (ls : List String)
    (split_max_level : Nat) : ChunkState :=
  match ls with
  | [] => emptyChunkState segments
  | first :: _ =>
    let idxs := scanIndices split_max_level 0 ls (none, none, none)
    { segments := segments, chunk_lines := ls,
      chunk_marker := current_marker segments first,
      chunk_content_chars := sumLens ls,
      last_blank_idx := idxs.1, last_heading_idx := idxs.2.1,
      last_nonindent_idx := idxs.2.2 }

/-- `o` holds an index strictly greater than zero; models the Python test
`i > 0` on an integer that is either `-1` or a stored index. -/
def optGtZero : Option Nat → Bool
  | some i => decide (0 < i)
  | none => false

/-- The cut-point selection of the length-cut loop, computed from the
tracked state exactly as in the source:
heading first (`last_heading_idx > 0` cuts just before it), then blank line
(`last_blank_idx != -1` cuts at and including it), then non-indented line
(`last_nonindent_idx > 0` cuts just before it), else after the last line. -/
def codeCutIdx (st : ChunkState) : Nat :=
  if optGtZero st.last_heading_idx then st.last_heading_idx.getD 0 - 1
  else if st.last_blank_idx.isSome then st.last_blank_idx.getD 0
  else if optGtZero st.last_nonindent_idx then st.last_nonindent_idx.getD 0 - 1
  else st.chunk_lines.length - 1

/-- The `while chunk_lines:` length-cut loop, with an explicit fuel
parameter used as the structural recursion measure.  Every iteration that
continues strictly shrinks `chunk_lines` (the emitted left part is never
empty), so running with fuel `chunk_lines.length` computes the loop exactly:
at fuel zero `chunk_lines` is already empty and the Python loop also stops.
Returns the chunks emitted by the loop and the state at loop exit. -/
def lengthCutLoopAux (max_chunk_length split_max_level : Nat) (is_last_line : Bool) :
    Nat → ChunkState → List Chunk × ChunkState
  | 0, st => ([], st)
  | fuel + 1, st =>
    if st.chunk_lines.isEmpty then ([], st)
    else if st.chunk_marker.length + 1 + st.chunk_content_chars < max_chunk_length then
      ([], st)
    else
      let cut := codeCutIdx st
      let left_lines := st.chunk_lines.take (cut + 1)
      let right_lines := st.chunk_lines.drop (cut + 1)
      let add_delimiter := !right_lines.isEmpty || !is_last_line
      let er := emit_chunk st.segments st.chunk_marker left_lines add_delimiter true
      let st' := recompute_chunk_metadata er.2 right_lines split_max_level
      let rec_ := lengthCutLoopAux max_chunk_length split_max_level is_last_line fuel st'
      (er.1 ++ rec_.1, rec_.2)

/-- The length-cut loop, run with sufficient fuel. -/
def lengthCutLoop (max_chunk_length split_max_level : Nat) (is_last_line : Bool)
    (st : ChunkState) : List Chunk × ChunkState :=
  lengthCutLoopAux max_chunk_length split_max_level is_last_line st.chunk_lines.length st

/-- The per-line accumulation step of the main `for` loop (everything
between the heading-boundary check and the length-cut loop): open a new
chunk if the accumulator is empty (computing the marker from the tracker and
the incoming line), append the line, add its length, and update the three
cut-point indices. -/
def append_line_step (split_max_level : Nat) (st : ChunkState) (line : String) : ChunkState :=
  let st :=
    if st.chunk_lines.isEmpty then
      { st with chunk_marker := current_marker st.segments line,
                chunk_content_chars := 0, last_blank_idx := none,
                last_heading_idx := none, last_nonindent_idx := none }
    else st
  let idx_in_chunk := st.chunk_lines.length
  let st := { st with chunk_lines := st.chunk_lines ++ [line],
                      chunk_content_chars := st.chunk_content_chars + line.length }
  if isBlankLine line then { st with last_blank_idx := some idx_in_chunk }
  else if 0 < idx_in_chunk then
    let st :=
      if isBoundaryHeading line split_max_level then
        { st with last_heading_idx := some idx_in_chunk }
      else st
    if nonIndentLine line then
      { st with last_nonindent_idx := some idx_in_chunk }
    else st
  else st

/-- The main `for idx, line in enumerate(lines_list)` loop of
`_split_and_prefix`, followed by the final flush: per line, emit the current
chunk when a boundary heading arrives, accumulate the line, then run the
length-cut loop; at end of input flush the remaining chunk without a
delimiter. -/
def process_lines (max_chunk_length split_max_level : Nat) :
    List String → ChunkState → List Chunk
  | [], st => (emit_chunk st.segments st.chunk_marker st.chunk_lines false false).1
  | line :: rest, st =>
    let stepBoundary :=
      if !st.chunk_lines.isEmpty && isBoundaryHeading line split_max_level then
        let er := emit_chunk st.segments st.chunk_marker st.chunk_lines true false
        (er.1, emptyChunkState er.2)
      else ([], st)
    let st2 := append_line_step split_max_level stepBoundary.2 line
    let cutRes := lengthCutLoop max_chunk_length split_max_level rest.isEmpty st2
    stepBoundary.1 ++ (cutRes.1 ++ process_lines max_chunk_length split_max_level rest cutRes.2)

/-- The sequence of chunks emitted by `_split_and_prefix` on the given
input. -/
def splitBlocks (lines : List String) (max_chunk_length split_max_level : Nat) : List Chunk :=
  process_lines max_chunk_length split_max_level lines initState

/-- The output lines that one `emit_chunk` call yields for an emitted chunk:
the marker line, the content lines, and the delimiter line when present. -/
def renderChunk (b : Chunk) : List OutLine :=
  OutLine.marker b.marker :: (b.lines.map OutLine.content ++ (if b.delim then [OutLine.delim] else []))

/-- The tagged output line sequence of `_split_and_prefix`. -/
def splitOut (lines : List String) (max_chunk_length split_max_level : Nat) : List OutLine :=
  (splitBlocks lines max_chunk_length split_max_level).flatMap renderChunk

/-- The concrete text of an output line: the marker and the delimiter are
yielded with a trailing newline, content lines are yielded verbatim. -/
def renderOutLine : OutLine → String
  | OutLine.marker s => s ++ "\n"
  | OutLine.content s => s
  | OutLine.delim => DELIM ++ "\n"

/-- The full modelled output of `_split_and_prefix` as a list of yielded
strings. -/
def split_and_prefix' (lines : List String) (max_chunk_length split_max_level : Nat) : List String :=
  (splitOut lines max_chunk_length split_max_level).map renderOutLine

/- ------------------------------------------------------------------
Spec-side definitions (written from the wording of the specification, to be
compared with the code-side definitions above).
------------------------------------------------------------------ -/

/-- Modelled from the spec: the per-segment quoting rule of section 6 —
inside the quotes replace each backslash by two backslashes and each double
quote by backslash-quote. -/
def specEscapeChar (c : Char) : List Char :=
  if c == '\\' then ['\\', '\\']
  else if c == '"' then ['\\', '"']
  else [c]

/-- Modelled from the spec: wrap the segment in double quotes after
stripping surrounding whitespace and escaping each character. -/
def specQuoteSegment (s : String) : String :=
  "\"" ++ String.mk (((pyStripL s.data).map specEscapeChar).flatten) ++ "\""

/-- Modelled from the spec: the marker line text
`\x7b data-path = <quoted-segments-joined-by-arrows> \x7d`; an empty segment
list yields an empty middle (hence two spaces between the equals sign and
the closing brace). -/
def specMarkerRender (segments : List String) : String :=
  "\x7b data-path = " ++ String.intercalate " > " (segments.map specQuoteSegment) ++ " \x7d"

/-- Keep the newly scanned value when present, otherwise the accumulator. -/
def mergeIdx (o fallback : Option Nat) : Option Nat :=
  match o with
  | some j => some j
  | none => fallback

/-- Greatest index `i` (counting from `start` for the head) in the list such
that `p i line` holds; the declarative "most recent such line" of the
specification. -/
def specLastIdx (p : Nat → String → Bool) (start : Nat) : List String → Option Nat
  | [] => none
  | l :: rest =>
    match specLastIdx p (start + 1) rest with
    | some j => some j
    | none => if p start l then some start else none

/-- Most recent blank line of the chunk. -/
def specLastBlank (ls : List String) : Option Nat :=
  specLastIdx (fun _ l => isBlankLine l) 0 ls

/-- Most recent in-chunk heading of level at most `split_max_level`,
excluding the first line. -/
def specLastHeading (split_max_level : Nat) (ls : List String) : Option Nat :=
  specLastIdx (fun i l => decide (0 < i) && isBoundaryHeading l split_max_level) 0 ls

/-- Most recent non-first line with a non-whitespace first character. -/
def specLastNonindent (ls : List String) : Option Nat :=
  specLastIdx (fun i l => decide (0 < i) && nonIndentLine l) 0 ls

/-- The declarative cut-point priority of the specification: just before the
most recent eligible in-chunk heading; else at (and including) the most
recent blank line; else just before the most recent non-first non-indented
line; else after the last line of the chunk. -/
def specCutIdx (split_max_level : Nat) (ls : List String) : Nat :=
  match specLastHeading split_max_level ls with
  | some i => i - 1
  | none =>
    match specLastBlank ls with
    | some j => j
    | none =>
      match specLastNonindent ls with
      | some k => k - 1
      | none => ls.length - 1

/-- The tracked chunk bookkeeping agrees with the declarative values
computed from `chunk_lines`: the running character count is the sum of the
line lengths, and the three cut-point indices are the most recent matching
positions. -/
def Consistent (split_max_level : Nat) (st : ChunkState) : Prop :=
  st.chunk_content_chars = sumLens st.chunk_lines ∧
  st.last_blank_idx = specLastBlank st.chunk_lines ∧
  st.last_heading_idx = specLastHeading split_max_level st.chunk_lines ∧
  st.last_nonindent_idx = specLastNonindent st.chunk_lines

/-- Extract the content payload of an output line. -/
def contentOf : OutLine → Option String
  | OutLine.content s => some s
  | _ => none

/-- The output line is a delimiter line. -/
def isDelimLine : OutLine → Bool
  | OutLine.delim => true
  | _ => false

/-- The output line is a marker line. -/
def isMarkerLine : OutLine → Bool
  | OutLine.marker _ => true
  | _ => false

/-- Every chunk except the last carries its trailing delimiter, and the last
chunk carries none. -/
def delimsOk : List Chunk → Bool
  | [] => true
  | [b] => !b.delim
  | b :: rest => b.delim && delimsOk rest

/- ------------------------------------------------------------------
Helper lemmas.
------------------------------------------------------------------ -/

theorem blank_not_heading {l : String} (h : isBlankLine l = true) :
    headingMatch l = none := by
  unfold headingMatch
  cases hd : l.data with
  | nil => simp [hd]
  | cons c cs =>
    have hc : isSpaceChar c = true := by
      have h' := h
      unfold isBlankLine at h'
      rw [hd] at h'
      simp [List.all_cons] at h'
      exact h'.1
    have hch : (c == '#') = false := by
      cases hb : c == '#' with
      | true =>
        have : c = '#' := by exact eq_of_beq hb
        subst this
        simp [isSpaceChar] at hc
      | false => rfl
    simp [hd, List.takeWhile_cons, hch]

theorem blank_not_boundary {l : String} (h : isBlankLine l = true) (lvl : Nat) :
    isBoundaryHeading l lvl = false := by
  simp [isBoundaryHeading, blank_not_heading h]

theorem blank_not_nonindent {l : String} (h : isBlankLine l = true) :
    nonIndentLine l = false := by
  unfold nonIndentLine headIsSpace
  cases hd : l.data with
  | nil => simp [hd]
  | cons c cs =>
    have hc : isSpaceChar c = true := by
      have h' := h
      unfold isBlankLine at h'
      rw [hd] at h'
      simp [List.all_cons] at h'
      exact h'.1
    simp [hd, hc]

theorem headingMatch_level_pos {l : String} {lvl : Nat} {t : String}
    (h : headingMatch l = some (lvl, t)) : 1 ≤ lvl ∧ lvl ≤ 6 := by
  unfold headingMatch at h
  by_cases hcond : 1 ≤ (l.data.takeWhile (fun c => c == '#')).length ∧
      (l.data.takeWhile (fun c => c == '#')).length ≤ 6
  · cases hrest : l.data.drop (l.data.takeWhile (fun c => c == '#')).length with
    | nil => simp [hrest, hcond] at h
    | cons c cs =>
      by_cases hws : isSpaceChar c = true
      · simp [hrest, hcond, hws] at h
        omega
      · simp [hrest, hcond, hws] at h
  · simp [hcond] at h

theorem mergeIdx_none (a : Option Nat) : mergeIdx none a = a := rfl

theorem mergeIdx_some (j : Nat) (a : Option Nat) : mergeIdx (some j) a = some j := rfl

/-- Push an accumulator update through `mergeIdx` across one list element. -/
theorem mergeIdx_step (p : Nat → String → Bool) (i : Nat) (l : String)
    (ls : List String) (a : Option Nat) :
    mergeIdx (specLastIdx p i (l :: ls)) a =
      mergeIdx (specLastIdx p (i + 1) ls) (if p i l then some i else a) := by
  show mergeIdx (match specLastIdx p (i + 1) ls with
       | some j => some j
       | none => if p i l then some i else none) a = _
  cases hr : specLastIdx p (i + 1) ls with
  | some j => simp [mergeIdx]
  | none =>
    cases hp : p i l with
    | true => simp [mergeIdx, hp]
    | false => simp [mergeIdx, hp]

/-- The scanning loop of `recompute_chunk_metadata` computes, for each of the
three bookkeeping slots, the most recent matching index (merged over the
incoming accumulator). -/
theorem scanIndices_eq (lvl : Nat) :
    ∀ (ls : List String) (i : Nat) (a b c : Option Nat),
      scanIndices lvl i ls (a, b, c) =
        (mergeIdx (specLastIdx (fun _ l => isBlankLine l) i ls) a,
         mergeIdx (specLastIdx (fun j l => decide (0 < j) && isBoundaryHeading l lvl) i ls) b,
         mergeIdx (specLastIdx (fun j l => decide (0 < j) && nonIndentLine l) i ls) c) := by
  intro ls
  induction ls with
  | nil => intro i a b c; simp [scanIndices, specLastIdx, mergeIdx]
  | cons l rest ih =>
    intro i a b c
    rw [mergeIdx_step, mergeIdx_step, mergeIdx_step]
    by_cases hb : isBlankLine l = true
    · have h1 : isBoundaryHeading l lvl = false := blank_not_boundary hb lvl
      have h2 : nonIndentLine l = false := blank_not_nonindent hb
      simp only [scanIndices, hb, if_true]
      rw [ih]
      simp [hb, h1, h2]
    · have hb' : isBlankLine l = false := by
        cases hx : isBlankLine l with
        | true => exact absurd hx hb
        | false => rfl
      by_cases hi : 0 < i
      · simp only [scanIndices, hb', Bool.false_eq_true, if_false, hi, if_true]
        rw [ih]
        simp [hb', hi]
      · have hi0 : i = 0 := by omega
        subst hi0
        simp only [scanIndices, hb', Bool.false_eq_true, if_false]
        rw [if_neg (by omega), ih]
        simp [hb']

/-- `recompute_chunk_metadata` really recomputes everything from scratch:
the resulting state carries the new lines, the ingested segments, the marker
computed from the new first line, the exact character sum and the
declarative most-recent cut-point indices. -/
theorem recompute_eq_spec (segments : List String) (ls : List String) (lvl : Nat) :
    recompute_chunk_metadata segments ls lvl =
      { segments := segments, chunk_lines := ls,
        chunk_marker := match ls with
          | [] => ""
          | first :: _ => current_marker segments first,
        chunk_content_chars := sumLens ls,
        last_blank_idx := specLastBlank ls,
        last_heading_idx := specLastHeading lvl ls,
        last_nonindent_idx := specLastNonindent ls } := by
  cases ls with
  | nil => simp [recompute_chunk_metadata, emptyChunkState, sumLens, specLastBlank,
      specLastHeading, specLastNonindent, specLastIdx]
  | cons first rest =>
    simp only [recompute_chunk_metadata]
    rw [scanIndices_eq]
    simp [specLastBlank, specLastHeading, specLastNonindent, mergeIdx]
    constructor
    · cases hr : specLastIdx (fun _ l => isBlankLine l) 0 (first :: rest) <;> simp [mergeIdx]
    constructor
    · cases hr : specLastIdx (fun j l => decide (0 < j) && isBoundaryHeading l lvl) 0 (first :: rest) <;> simp [mergeIdx]
    · cases hr : specLastIdx (fun j l => decide (0 < j) && nonIndentLine l) 0 (first :: rest) <;> simp [mergeIdx]

theorem sumLens_nil : sumLens [] = 0 := rfl

theorem sumLens_cons (l : String) (ls : List String) :
    sumLens (l :: ls) = l.length + sumLens ls := by
  simp [sumLens]

theorem sumLens_append (xs ys : List String) :
    sumLens (xs ++ ys) = sumLens xs + sumLens ys := by
  simp [sumLens]

theorem sumLens_snoc (ls : List String) (l : String) :
    sumLens (ls ++ [l]) = sumLens ls + l.length := by
  simp [sumLens]

/-- Appending a line at the end of the chunk updates the declarative
most-recent index exactly as the incremental bookkeeping does. -/
theorem specLastIdx_snoc (p : Nat → String → Bool) :
    ∀ (ls : List String) (i : Nat) (l : String),
      specLastIdx p i (ls ++ [l]) =
        if p (i + ls.length) l then some (i + ls.length) else specLastIdx p i ls := by
  intro ls
  induction ls with
  | nil =>
    intro i l
    show (match specLastIdx p (i + 1) [] with
      | some j => some j
      | none => if p i l then some i else none) = _
    simp [specLastIdx]
  | cons a rest ih =>
    intro i l
    show (match specLastIdx p (i + 1) (rest ++ [l]) with
      | some j => some j
      | none => if p i a then some i else none) = _
    rw [ih]
    have harith : i + 1 + rest.length = i + (a :: rest).length := by
      simp [List.length_cons]
      omega
    rw [harith]
    cases hp : p (i + (a :: rest).length) l with
    | true => simp [hp]
    | false =>
      simp only [hp, Bool.false_eq_true, if_false]
      rfl

/-- A returned most-recent index satisfies the predicate at some list
element. -/
theorem specLastIdx_sat (p : Nat → String → Bool) :
    ∀ (ls : List String) (i : Nat) (j : Nat),
      specLastIdx p i ls = some j → ∃ l, p j l = true := by
  intro ls
  induction ls with
  | nil => intro i j h; simp [specLastIdx] at h
  | cons a rest ih =>
    intro i j h
    rw [show specLastIdx p i (a :: rest) =
        (match specLastIdx p (i + 1) rest with
         | some j => some j
         | none => if p i a then some i else none) from rfl] at h
    cases hr : specLastIdx p (i + 1) rest with
    | some k =>
      rw [hr] at h
      simp at h
      subst h
      exact ih (i + 1) _ hr
    | none =>
      rw [hr] at h
      cases hp : p i a with
      | true =>
        rw [hp] at h
        simp at h
        subst h
        exact ⟨a, hp⟩
      | false =>
        rw [hp] at h
        simp at h

/-- A most-recent heading index is strictly positive. -/
theorem specLastHeading_pos {lvl : Nat} {ls : List String} {j : Nat}
    (h : specLastHeading lvl ls = some j) : 0 < j := by
  obtain ⟨l, hl⟩ := specLastIdx_sat _ ls 0 j h
  have := (Bool.and_eq_true _ _).mp hl
  exact of_decide_eq_true this.1

/-- A most-recent non-indented-line index is strictly positive. -/
theorem specLastNonindent_pos {ls : List String} {j : Nat}
    (h : specLastNonindent ls = some j) : 0 < j := by
  obtain ⟨l, hl⟩ := specLastIdx_sat _ ls 0 j h
  have := (Bool.and_eq_true _ _).mp hl
  exact of_decide_eq_true this.1

/-- The appended line always lands at the end of the chunk. -/
theorem append_chunk_lines (lvl : Nat) (st : ChunkState) (line : String) :
    (append_line_step lvl st line).chunk_lines = st.chunk_lines ++ [line] := by
  unfold append_line_step
  dsimp only
  split_ifs <;> rfl

/-- The running character count after appending a line. -/
theorem append_cc (lvl : Nat) (st : ChunkState) (line : String) :
    (append_line_step lvl st line).chunk_content_chars =
      (if st.chunk_lines.isEmpty then 0 else st.chunk_content_chars) + line.length := by
  unfold append_line_step
  dsimp only
  split_ifs <;> rfl

/-- The blank-line index after appending a line. -/
theorem append_lb (lvl : Nat) (st : ChunkState) (line : String) :
    (append_line_step lvl st line).last_blank_idx =
      if isBlankLine line then some st.chunk_lines.length
      else if st.chunk_lines.isEmpty then none else st.last_blank_idx := by
  unfold append_line_step
  dsimp only
  split_ifs <;> simp_all

/-- The heading index after appending a line. -/
theorem append_lh (lvl : Nat) (st : ChunkState) (line : String) :
    (append_line_step lvl st line).last_heading_idx =
      if !isBlankLine line && (decide (0 < st.chunk_lines.length) &&
          isBoundaryHeading line lvl) then some st.chunk_lines.length
      else if st.chunk_lines.isEmpty then none else st.last_heading_idx := by
  unfold append_line_step
  dsimp only
  split_ifs <;> simp_all

/-- The non-indented-line index after appending a line. -/
theorem append_ln (lvl : Nat) (st : ChunkState) (line : String) :
    (append_line_step lvl st line).last_nonindent_idx =
      if !isBlankLine line && (decide (0 < st.chunk_lines.length) &&
          nonIndentLine line) then some st.chunk_lines.length
      else if st.chunk_lines.isEmpty then none else st.last_nonindent_idx := by
  unfold append_line_step
  dsimp only
  split_ifs <;> simp_all

/-- The tracker segments are untouched by the accumulation step. -/
theorem append_segments (lvl : Nat) (st : ChunkState) (line : String) :
    (append_line_step lvl st line).segments = st.segments := by
  unfold append_line_step
  dsimp only
  split_ifs <;> rfl

theorem specLastBlank_nil : specLastBlank [] = none := rfl

theorem specLastHeading_nil (lvl : Nat) : specLastHeading lvl [] = none := rfl

theorem specLastNonindent_nil : specLastNonindent [] = none := rfl

/-- The per-line bookkeeping of the main loop preserves agreement with the
declarative most-recent cut-point indices and the character sum (the claim's
"after appending a line" state is always consistent). -/
theorem append_preserves_consistent (lvl : Nat) (st : ChunkState) (line : String)
    (h : Consistent lvl st) : Consistent lvl (append_line_step lvl st line) := by
  obtain ⟨hcc, hlb, hlh, hln⟩ := h
  refine ⟨?_, ?_, ?_, ?_⟩
  · rw [append_cc, append_chunk_lines, sumLens_snoc]
    cases hl : st.chunk_lines with
    | nil => simp [sumLens]
    | cons a rest =>
      rw [hl] at hcc
      simp [hcc]
  · rw [append_lb, append_chunk_lines]
    unfold specLastBlank
    rw [specLastIdx_snoc]
    simp only [Nat.zero_add]
    cases hbl : isBlankLine line with
    | true => simp [hbl]
    | false =>
      simp only [Bool.false_eq_true, if_false]
      cases hl : st.chunk_lines with
      | nil => simp [specLastIdx]
      | cons a rest =>
        rw [hl] at hlb
        simp [hlb, specLastBlank]
  · rw [append_lh, append_chunk_lines]
    unfold specLastHeading
    rw [specLastIdx_snoc]
    simp only [Nat.zero_add]
    cases hbl : isBlankLine line with
    | true =>
      simp only [hbl, Bool.not_true, Bool.false_and, Bool.false_eq_true, if_false,
        blank_not_boundary hbl lvl, Bool.and_false]
      cases hl : st.chunk_lines with
      | nil => simp [specLastIdx]
      | cons a rest =>
        rw [hl] at hlh
        simp [hlh, specLastHeading]
    | false =>
      simp only [hbl, Bool.not_false, Bool.true_and]
      cases hl : st.chunk_lines with
      | nil => simp [specLastIdx]
      | cons a rest =>
        rw [hl] at hlh
        simp only [hl, List.length_cons, List.isEmpty_cons]
        have : (0 < rest.length + 1) = True := by simp
        simp only [this, decide_true_eq_true, decide_True, Bool.true_and]
        cases hbh : isBoundaryHeading line lvl with
        | true => simp
        | false => simp [hlh, specLastHeading, hl]
  · rw [append_ln, append_chunk_lines]
    unfold specLastNonindent
    rw [specLastIdx_snoc]
    simp only [Nat.zero_add]
    cases hbl : isBlankLine line with
    | true =>
      simp only [hbl, Bool.not_true, Bool.false_and, Bool.false_eq_true, if_false,
        blank_not_nonindent hbl, Bool.and_false]
      cases hl : st.chunk_lines with
      | nil => simp [specLastIdx]
      | cons a rest =>
        rw [hl] at hln
        simp [hln, specLastNonindent]
    | false =>
      simp only [hbl, Bool.not_false, Bool.true_and]
      cases hl : st.chunk_lines with
      | nil => simp [specLastIdx]
      | cons a rest =>
        rw [hl] at hln
        simp only [hl, List.length_cons, List.isEmpty_cons]
        have : (0 < rest.length + 1) = True := by simp
        simp only [this, decide_true_eq_true, decide_True, Bool.true_and]
        cases hni : nonIndentLine line with
        | true => simp
        | false => simp [hln, specLastNonindent, hl]

/- ------------------------------------------------------------------
Length-cut loop lemmas.
------------------------------------------------------------------ -/

theorem recompute_chunk_lines (segments : List String) (ls : List String) (lvl : Nat) :
    (recompute_chunk_metadata segments ls lvl).chunk_lines = ls := by
  cases ls <;> rfl

theorem recompute_segments (segments : List String) (ls : List String) (lvl : Nat) :
    (recompute_chunk_metadata segments ls lvl).segments = segments := by
  cases ls <;> rfl

theorem recompute_cc (segments : List String) (ls : List String) (lvl : Nat) :
    (recompute_chunk_metadata segments ls lvl).chunk_content_chars = sumLens ls := by
  cases ls with
  | nil => simp [recompute_chunk_metadata, emptyChunkState, sumLens]
  | cons a rest => rfl

/-- The state returned by `recompute_chunk_metadata` is consistent. -/
theorem recompute_consistent (segments : List String) (ls : List String) (lvl : Nat) :
    Consistent lvl (recompute_chunk_metadata segments ls lvl) := by
  rw [recompute_eq_spec]
  exact ⟨rfl, rfl, rfl, rfl⟩

/-- Loop body is skipped entirely on an empty chunk. -/
theorem lengthCutLoopAux_nil (m lvl : Nat) (last : Bool) (fuel : Nat) (st : ChunkState)
    (h : st.chunk_lines = []) :
    lengthCutLoopAux m lvl last fuel st = ([], st) := by
  cases fuel with
  | zero => rfl
  | succ n =>
    unfold lengthCutLoopAux
    simp [h]

/-- The fuel value is irrelevant as long as it dominates the chunk length
(each iteration strictly shrinks the chunk). -/
theorem lengthCutLoopAux_fuel (m lvl : Nat) (last : Bool) :
    ∀ (f g : Nat) (st : ChunkState),
      st.chunk_lines.length ≤ f → st.chunk_lines.length ≤ g →
      lengthCutLoopAux m lvl last f st = lengthCutLoopAux m lvl last g st := by
  intro f
  induction f with
  | zero =>
    intro g st hf hg
    have h0 : st.chunk_lines = [] := by
      cases hl : st.chunk_lines with
      | nil => rfl
      | cons a b => rw [hl] at hf; simp at hf
    rw [lengthCutLoopAux_nil m lvl last 0 st h0, lengthCutLoopAux_nil m lvl last g st h0]
  | succ n ih =>
    intro g st hf hg
    cases hl : st.chunk_lines with
    | nil =>
      rw [lengthCutLoopAux_nil m lvl last _ st hl, lengthCutLoopAux_nil m lvl last g st hl]
    | cons a rest =>
      cases g with
      | zero =>
        rw [hl] at hg
        simp at hg
      | succ k =>
        unfold lengthCutLoopAux
        have hne : st.chunk_lines.isEmpty = false := by rw [hl]; rfl
        simp only [hne, Bool.false_eq_true, if_false]
        by_cases hlen : st.chunk_marker.length + 1 + st.chunk_content_chars < m
        · simp [hlen]
        · simp only [hlen, if_false]
          have hcut : ∀ cutp : Nat,
              (recompute_chunk_metadata
                (emit_chunk st.segments st.chunk_marker (st.chunk_lines.take (cutp + 1))
                  (!(st.chunk_lines.drop (cutp + 1)).isEmpty || !last) true).2
                (st.chunk_lines.drop (cutp + 1)) lvl).chunk_lines.length ≤ n ∧
              (recompute_chunk_metadata
                (emit_chunk st.segments st.chunk_marker (st.chunk_lines.take (cutp + 1))
                  (!(st.chunk_lines.drop (cutp + 1)).isEmpty || !last) true).2
                (st.chunk_lines.drop (cutp + 1)) lvl).chunk_lines.length ≤ k := by
            intro cutp
            rw [recompute_chunk_lines, List.length_drop]
            rw [hl] at hf hg ⊢
            simp only [List.length_cons] at hf hg ⊢
            exact ⟨by omega, by omega⟩
          obtain ⟨h1, h2⟩ := hcut (codeCutIdx st)
          rw [ih _ _ h1 h2]

/-- One-step unfolding of the length-cut loop when the chunk is non-empty
and over the length budget. -/
theorem lengthCutLoopAux_step (m lvl : Nat) (last : Bool) (fuel : Nat) (st : ChunkState)
    (hne : st.chunk_lines.isEmpty = false)
    (hlen : ¬ st.chunk_marker.length + 1 + st.chunk_content_chars < m) :
    lengthCutLoopAux m lvl last (fuel + 1) st =
      (let cut := codeCutIdx st
       let left_lines := st.chunk_lines.take (cut + 1)
       let right_lines := st.chunk_lines.drop (cut + 1)
       let er := emit_chunk st.segments st.chunk_marker left_lines
         (!right_lines.isEmpty || !last) true
       let st' := recompute_chunk_metadata er.2 right_lines lvl
       let r := lengthCutLoopAux m lvl last fuel st'
       (er.1 ++ r.1, r.2)) := by
  conv_lhs => rw [lengthCutLoopAux]
  rw [if_neg (by simp [hne] : ¬ st.chunk_lines.isEmpty = true), if_neg hlen]

/-- Taking at least one line from a non-empty chunk is non-empty. -/
theorem take_succ_ne {ls : List String} (h : ls ≠ []) (k : Nat) :
    ls.take (k + 1) ≠ [] := by
  cases ls with
  | nil => exact absurd rfl h
  | cons a rest => simp [List.take_succ_cons]

/-- Emitting a non-empty chunk produces exactly one block carrying the
marker, the lines and the delimiter flag. -/
theorem emit_chunk_ne (segments : List String) (marker : String) (ls : List String)
    (d v : Bool) (h : ls ≠ []) :
    emit_chunk segments marker ls d v = ([⟨marker, ls, d, v⟩], ingestLines segments ls) := by
  unfold emit_chunk
  rw [if_neg (by simp [h])]

/-- What the loop emits, concatenated with what it retains, is exactly the
chunk it started from. -/
theorem cutLoop_contents (m lvl : Nat) (last : Bool) :
    ∀ (fuel : Nat) (st : ChunkState), st.chunk_lines.length ≤ fuel →
      ((lengthCutLoopAux m lvl last fuel st).1.flatMap Chunk.lines) ++
        (lengthCutLoopAux m lvl last fuel st).2.chunk_lines = st.chunk_lines := by
  intro fuel
  induction fuel with
  | zero =>
    intro st hf
    have h0 : st.chunk_lines = [] := by
      cases hl : st.chunk_lines with
      | nil => rfl
      | cons a b => rw [hl] at hf; simp at hf
    rw [lengthCutLoopAux_nil _ _ _ _ _ h0]
    simp [h0]
  | succ n ih =>
    intro st hf
    cases hl : st.chunk_lines with
    | nil => rw [lengthCutLoopAux_nil _ _ _ _ _ hl]; simp [hl]
    | cons a rest =>
      have hne : st.chunk_lines.isEmpty = false := by rw [hl]; rfl
      by_cases hlen : st.chunk_marker.length + 1 + st.chunk_content_chars < m
      · unfold lengthCutLoopAux
        rw [if_neg (by simp [hne] : ¬ st.chunk_lines.isEmpty = true), if_pos hlen]
        simp [hl]
      · rw [lengthCutLoopAux_step m lvl last n st hne hlen]
        dsimp only
        have hlne : st.chunk_lines.take (codeCutIdx st + 1) ≠ [] :=
          take_succ_ne (by rw [hl]; simp) _
        rw [emit_chunk_ne _ _ _ _ _ hlne]
        have hrlen : (st.chunk_lines.drop (codeCutIdx st + 1)).length ≤ n := by
          rw [List.length_drop, hl]
          rw [hl] at hf
          simp only [List.length_cons] at hf ⊢
          omega
        have ihr := ih (recompute_chunk_metadata
            (ingestLines st.segments (st.chunk_lines.take (codeCutIdx st + 1)))
            (st.chunk_lines.drop (codeCutIdx st + 1)) lvl)
          (by rw [recompute_chunk_lines]; exact hrlen)
        rw [recompute_chunk_lines] at ihr
        dsimp only
        rw [List.flatMap_append]
        simp only [List.flatMap_cons, List.flatMap_nil, List.append_nil]
        rw [List.append_assoc, ihr]
        rw [hl, List.take_append_drop]

/-- At loop exit the retained chunk is either empty or strictly below the
length budget. -/
theorem cutLoop_exit (m lvl : Nat) (last : Bool) :
    ∀ (fuel : Nat) (st : ChunkState), st.chunk_lines.length ≤ fuel →
      (lengthCutLoopAux m lvl last fuel st).2.chunk_lines = [] ∨
        (lengthCutLoopAux m lvl last fuel st).2.chunk_marker.length + 1 +
          (lengthCutLoopAux m lvl last fuel st).2.chunk_content_chars < m := by
  intro fuel
  induction fuel with
  | zero =>
    intro st hf
    have h0 : st.chunk_lines = [] := by
      cases hl : st.chunk_lines with
      | nil => rfl
      | cons a b => rw [hl] at hf; simp at hf
    rw [lengthCutLoopAux_nil _ _ _ _ _ h0]
    exact Or.inl h0
  | succ n ih =>
    intro st hf
    cases hl : st.chunk_lines with
    | nil =>
      rw [lengthCutLoopAux_nil _ _ _ _ _ hl]
      exact Or.inl hl
    | cons a rest =>
      have hne : st.chunk_lines.isEmpty = false := by rw [hl]; rfl
      by_cases hlen : st.chunk_marker.length + 1 + st.chunk_content_chars < m
      · unfold lengthCutLoopAux
        rw [if_neg (by simp [hne] : ¬ st.chunk_lines.isEmpty = true), if_pos hlen]
        exact Or.inr hlen
      · rw [lengthCutLoopAux_step m lvl last n st hne hlen]
        have hrlen : (st.chunk_lines.drop (codeCutIdx st + 1)).length ≤ n := by
          rw [List.length_drop, hl]
          rw [hl] at hf
          simp only [List.length_cons] at hf ⊢
          omega
        dsimp only
        exact ih _ (by rw [recompute_chunk_lines]; exact hrlen)

/-- Every block the loop emits was emitted with the `via_cut` flag, with
non-empty content. -/
theorem cutLoop_blocks (m lvl : Nat) (last : Bool) :
    ∀ (fuel : Nat) (st : ChunkState), st.chunk_lines.length ≤ fuel →
      ∀ b ∈ (lengthCutLoopAux m lvl last fuel st).1, b.via_cut = true ∧ b.lines ≠ [] := by
  intro fuel
  induction fuel with
  | zero =>
    intro st hf
    have h0 : st.chunk_lines = [] := by
      cases hl : st.chunk_lines with
      | nil => rfl
      | cons a b => rw [hl] at hf; simp at hf
    rw [lengthCutLoopAux_nil _ _ _ _ _ h0]
    intro b hb
    simp at hb
  | succ n ih =>
    intro st hf
    cases hl : st.chunk_lines with
    | nil =>
      rw [lengthCutLoopAux_nil _ _ _ _ _ hl]
      intro b hb
      simp at hb
    | cons a rest =>
      have hne : st.chunk_lines.isEmpty = false := by rw [hl]; rfl
      by_cases hlen : st.chunk_marker.length + 1 + st.chunk_content_chars < m
      · unfold lengthCutLoopAux
        rw [if_neg (by simp [hne] : ¬ st.chunk_lines.isEmpty = true), if_pos hlen]
        intro b hb
        simp at hb
      · rw [lengthCutLoopAux_step m lvl last n st hne hlen]
        dsimp only
        have hlne : st.chunk_lines.take (codeCutIdx st + 1) ≠ [] :=
          take_succ_ne (by rw [hl]; simp) _
        rw [emit_chunk_ne _ _ _ _ _ hlne]
        have hrlen : (st.chunk_lines.drop (codeCutIdx st + 1)).length ≤ n := by
          rw [List.length_drop, hl]
          rw [hl] at hf
          simp only [List.length_cons] at hf ⊢
          omega
        dsimp only
        intro b hb
        rw [List.mem_append] at hb
        cases hb with
        | inl hb =>
          rw [List.mem_singleton] at hb
          subst hb
          exact ⟨rfl, hlne⟩
        | inr hb =>
          exact ih _ (by rw [recompute_chunk_lines]; exact hrlen) b hb

/-- The loop keeps the character-count bookkeeping in sync. -/
theorem cutLoop_cc (m lvl : Nat) (last : Bool) :
    ∀ (fuel : Nat) (st : ChunkState), st.chunk_lines.length ≤ fuel →
      st.chunk_content_chars = sumLens st.chunk_lines →
      (lengthCutLoopAux m lvl last fuel st).2.chunk_content_chars =
        sumLens (lengthCutLoopAux m lvl last fuel st).2.chunk_lines := by
  intro fuel
  induction fuel with
  | zero =>
    intro st hf hcc
    have h0 : st.chunk_lines = [] := by
      cases hl : st.chunk_lines with
      | nil => rfl
      | cons a b => rw [hl] at hf; simp at hf
    rw [lengthCutLoopAux_nil _ _ _ _ _ h0]
    exact hcc
  | succ n ih =>
    intro st hf hcc
    cases hl : st.chunk_lines with
    | nil => rw [lengthCutLoopAux_nil _ _ _ _ _ hl]; exact hcc
    | cons a rest =>
      have hne : st.chunk_lines.isEmpty = false := by rw [hl]; rfl
      by_cases hlen : st.chunk_marker.length + 1 + st.chunk_content_chars < m
      · unfold lengthCutLoopAux
        rw [if_neg (by simp [hne] : ¬ st.chunk_lines.isEmpty = true), if_pos hlen]
        exact hcc
      · rw [lengthCutLoopAux_step m lvl last n st hne hlen]
        dsimp only
        have hrlen : (st.chunk_lines.drop (codeCutIdx st + 1)).length ≤ n := by
          rw [List.length_drop, hl]
          rw [hl] at hf
          simp only [List.length_cons] at hf ⊢
          omega
        exact ih _ (by rw [recompute_chunk_lines]; exact hrlen)
          (by rw [recompute_cc, recompute_chunk_lines])

/-- The loop preserves consistency of the tracked bookkeeping (the retained
remainder is recomputed from scratch). -/
theorem cutLoop_consistent (m lvl : Nat) (last : Bool) :
    ∀ (fuel : Nat) (st : ChunkState), st.chunk_lines.length ≤ fuel →
      Consistent lvl st →
      Consistent lvl (lengthCutLoopAux m lvl last fuel st).2 := by
  intro fuel
  induction fuel with
  | zero =>
    intro st hf hcons
    have h0 : st.chunk_lines = [] := by
      cases hl : st.chunk_lines with
      | nil => rfl
      | cons a b => rw [hl] at hf; simp at hf
    rw [lengthCutLoopAux_nil _ _ _ _ _ h0]
    exact hcons
  | succ n ih =>
    intro st hf hcons
    cases hl : st.chunk_lines with
    | nil => rw [lengthCutLoopAux_nil _ _ _ _ _ hl]; exact hcons
    | cons a rest =>
      have hne : st.chunk_lines.isEmpty = false := by rw [hl]; rfl
      by_cases hlen : st.chunk_marker.length + 1 + st.chunk_content_chars < m
      · unfold lengthCutLoopAux
        rw [if_neg (by simp [hne] : ¬ st.chunk_lines.isEmpty = true), if_pos hlen]
        exact hcons
      · rw [lengthCutLoopAux_step m lvl last n st hne hlen]
        dsimp only
        have hrlen : (st.chunk_lines.drop (codeCutIdx st + 1)).length ≤ n := by
          rw [List.length_drop, hl]
          rw [hl] at hf
          simp only [List.length_cons] at hf ⊢
          omega
        exact ih _ (by rw [recompute_chunk_lines]; exact hrlen)
          (recompute_consistent _ _ _)

/-- Delimiter discipline of the length-cut loop: either every emitted block
carries a delimiter (and when the loop additionally consumed the whole chunk
and emitted something, the current line cannot be the last one), or the very
last emitted block lacks the delimiter, in which case the chunk was consumed
on the last input line. -/
theorem cutLoop_delims (m lvl : Nat) (last : Bool) :
    ∀ (fuel : Nat) (st : ChunkState), st.chunk_lines.length ≤ fuel →
      ((∀ b ∈ (lengthCutLoopAux m lvl last fuel st).1, b.delim = true) ∧
        ((lengthCutLoopAux m lvl last fuel st).2.chunk_lines = [] →
          (lengthCutLoopAux m lvl last fuel st).1 = [] ∨ last = false)) ∨
      (∃ pre lastb, (lengthCutLoopAux m lvl last fuel st).1 = pre ++ [lastb] ∧
        (∀ b ∈ pre, b.delim = true) ∧ lastb.delim = false ∧
        (lengthCutLoopAux m lvl last fuel st).2.chunk_lines = [] ∧ last = true) := by
  intro fuel
  induction fuel with
  | zero =>
    intro st hf
    have h0 : st.chunk_lines = [] := by
      cases hl : st.chunk_lines with
      | nil => rfl
      | cons a b => rw [hl] at hf; simp at hf
    rw [lengthCutLoopAux_nil _ _ _ _ _ h0]
    exact Or.inl ⟨by intro b hb; simp at hb, fun _ => Or.inl rfl⟩
  | succ n ih =>
    intro st hf
    cases hl : st.chunk_lines with
    | nil =>
      rw [lengthCutLoopAux_nil _ _ _ _ _ hl]
      exact Or.inl ⟨by intro b hb; simp at hb, fun _ => Or.inl rfl⟩
    | cons a rest =>
      have hne : st.chunk_lines.isEmpty = false := by rw [hl]; rfl
      by_cases hlen : st.chunk_marker.length + 1 + st.chunk_content_chars < m
      · unfold lengthCutLoopAux
        rw [if_neg (by simp [hne] : ¬ st.chunk_lines.isEmpty = true), if_pos hlen]
        exact Or.inl ⟨by intro b hb; simp at hb, fun _ => Or.inl rfl⟩
      · rw [lengthCutLoopAux_step m lvl last n st hne hlen]
        dsimp only
        have hlne : st.chunk_lines.take (codeCutIdx st + 1) ≠ [] :=
          take_succ_ne (by rw [hl]; simp) _
        rw [emit_chunk_ne _ _ _ _ _ hlne]
        have hrlen : (st.chunk_lines.drop (codeCutIdx st + 1)).length ≤ n := by
          rw [List.length_drop, hl]
          rw [hl] at hf
          simp only [List.length_cons] at hf ⊢
          omega
        dsimp only
        set right := st.chunk_lines.drop (codeCutIdx st + 1) with hright
        set segs' := ingestLines st.segments (st.chunk_lines.take (codeCutIdx st + 1)) with hsegs
        set st' := recompute_chunk_metadata segs' right lvl with hst
        have hstlen : st'.chunk_lines.length ≤ n := by
          rw [hst, recompute_chunk_lines]; exact hrlen
        cases hd : (!right.isEmpty || !last) with
        | false =>
          have hre : right.isEmpty = true := by
            cases hx : right.isEmpty with
            | true => rfl
            | false => rw [hx] at hd; simp at hd
          have hrnil : right = [] := by
            cases hy : right with
            | nil => rfl
            | cons u v => rw [hy] at hre; simp [List.isEmpty] at hre
          have hlast : last = true := by
            cases hz : last with
            | true => rfl
            | false => rw [hz] at hd; simp at hd
          have hstnil : st'.chunk_lines = [] := by rw [hst, recompute_chunk_lines]; exact hrnil
          rw [lengthCutLoopAux_nil m lvl last n st' hstnil]
          refine Or.inr ⟨[], ⟨st.chunk_marker, st.chunk_lines.take (codeCutIdx st + 1), false, true⟩,
            ?_, ?_, rfl, hstnil, hlast⟩
          · simp
          · intro b hb; simp at hb
        | true =>
          cases ih st' hstlen with
          | inl hIH =>
            obtain ⟨hall, himp⟩ := hIH
            refine Or.inl ⟨?_, ?_⟩
            · intro b hb
              simp only [List.cons_append, List.nil_append, List.mem_cons] at hb
              cases hb with
              | inl hb => subst hb; rfl
              | inr hb => exact hall b hb
            · intro hchunk
              cases himp hchunk with
              | inr hlastf => exact Or.inr hlastf
              | inl hrecnil =>
                have hcont := cutLoop_contents m lvl last n st' hstlen
                rw [hrecnil, hchunk, List.flatMap_nil] at hcont
                have hrnil : right = [] := by
                  rw [hst, recompute_chunk_lines] at hcont
                  exact hcont.symm
                rw [hrnil] at hd
                simp at hd
                cases hz : last with
                | true => rw [hz] at hd; simp at hd
                | false => exact Or.inr rfl
          | inr hIH =>
            obtain ⟨pre, lastb, hout, hpre, hlb, hchunk, hlast⟩ := hIH
            refine Or.inr ⟨⟨st.chunk_marker, st.chunk_lines.take (codeCutIdx st + 1), true, true⟩ :: pre,
              lastb, ?_, ?_, hlb, hchunk, hlast⟩
            · simp only [List.cons_append, List.nil_append, hout]
            · intro b hb
              simp only [List.mem_cons] at hb
              cases hb with
              | inl hb => subst hb; rfl
              | inr hb => exact hpre b hb

/- ------------------------------------------------------------------
Main-loop (process_lines) lemmas.
------------------------------------------------------------------ -/

theorem lengthCutLoop_contents (m lvl : Nat) (last : Bool) (st : ChunkState) :
    ((lengthCutLoop m lvl last st).1.flatMap Chunk.lines) ++
      (lengthCutLoop m lvl last st).2.chunk_lines = st.chunk_lines :=
  cutLoop_contents m lvl last _ st (Nat.le_refl _)

theorem lengthCutLoop_exit (m lvl : Nat) (last : Bool) (st : ChunkState) :
    (lengthCutLoop m lvl last st).2.chunk_lines = [] ∨
      (lengthCutLoop m lvl last st).2.chunk_marker.length + 1 +
        (lengthCutLoop m lvl last st).2.chunk_content_chars < m :=
  cutLoop_exit m lvl last _ st (Nat.le_refl _)

theorem lengthCutLoop_blocks (m lvl : Nat) (last : Bool) (st : ChunkState) :
    ∀ b ∈ (lengthCutLoop m lvl last st).1, b.via_cut = true ∧ b.lines ≠ [] :=
  cutLoop_blocks m lvl last _ st (Nat.le_refl _)

theorem lengthCutLoop_cc (m lvl : Nat) (last : Bool) (st : ChunkState)
    (h : st.chunk_content_chars = sumLens st.chunk_lines) :
    (lengthCutLoop m lvl last st).2.chunk_content_chars =
      sumLens (lengthCutLoop m lvl last st).2.chunk_lines :=
  cutLoop_cc m lvl last _ st (Nat.le_refl _) h

theorem lengthCutLoop_delims (m lvl : Nat) (last : Bool) (st : ChunkState) :
    ((∀ b ∈ (lengthCutLoop m lvl last st).1, b.delim = true) ∧
      ((lengthCutLoop m lvl last st).2.chunk_lines = [] →
        (lengthCutLoop m lvl last st).1 = [] ∨ last = false)) ∨
    (∃ pre lastb, (lengthCutLoop m lvl last st).1 = pre ++ [lastb] ∧
      (∀ b ∈ pre, b.delim = true) ∧ lastb.delim = false ∧
      (lengthCutLoop m lvl last st).2.chunk_lines = [] ∧ last = true) :=
  cutLoop_delims m lvl last _ st (Nat.le_refl _)

theorem emptyChunkState_chunk_lines (segments : List String) :
    (emptyChunkState segments).chunk_lines = [] := rfl

/-- Content preservation through the whole main loop: everything emitted,
plus nothing else, in order. -/
theorem process_contents (m lvl : Nat) :
    ∀ (lines : List String) (st : ChunkState),
      (process_lines m lvl lines st).flatMap Chunk.lines = st.chunk_lines ++ lines := by
  intro lines
  induction lines with
  | nil =>
    intro st
    show (emit_chunk st.segments st.chunk_marker st.chunk_lines false false).1.flatMap
      Chunk.lines = st.chunk_lines ++ []
    cases hl : st.chunk_lines with
    | nil => simp [emit_chunk, hl]
    | cons a rest =>
      rw [emit_chunk_ne _ _ _ _ _ (by simp [hl])]
      simp
  | cons line rest ih =>
    intro st
    rw [process_lines]
    dsimp only
    by_cases hbd : (!st.chunk_lines.isEmpty && isBoundaryHeading line lvl) = true
    · rw [if_pos hbd]
      have hlne : st.chunk_lines ≠ [] := by
        intro hx
        rw [hx] at hbd
        simp at hbd
      rw [emit_chunk_ne _ _ _ _ _ hlne]
      dsimp only
      have hst2 : (append_line_step lvl (emptyChunkState
          (ingestLines st.segments st.chunk_lines)) line).chunk_lines = [line] := by
        rw [append_chunk_lines, emptyChunkState_chunk_lines, List.nil_append]
      rw [List.flatMap_append, List.flatMap_cons, List.flatMap_nil, List.flatMap_append]
      rw [ih]
      have hcut := lengthCutLoop_contents m lvl rest.isEmpty
        (append_line_step lvl (emptyChunkState (ingestLines st.segments st.chunk_lines)) line)
      rw [hst2] at hcut
      dsimp only
      rw [List.append_nil]
      congr 1
      rw [← List.append_assoc, hcut]
      simp
    · rw [if_neg hbd]
      dsimp only
      rw [List.nil_append, List.flatMap_append, ih]
      have hcut := lengthCutLoop_contents m lvl rest.isEmpty (append_line_step lvl st line)
      rw [append_chunk_lines] at hcut
      rw [← List.append_assoc, hcut, List.append_assoc]
      simp

theorem isEmpty_iff_nil {ls : List String} : ls.isEmpty = true ↔ ls = [] := by
  cases ls <;> simp

/-- The accumulation step keeps the character count equal to the sum of the
chunk line lengths. -/
theorem append_cc_sum (lvl : Nat) (st : ChunkState) (line : String)
    (h : st.chunk_content_chars = sumLens st.chunk_lines) :
    (append_line_step lvl st line).chunk_content_chars =
      sumLens (append_line_step lvl st line).chunk_lines := by
  rw [append_cc, append_chunk_lines, sumLens_snoc]
  cases hl : st.chunk_lines with
  | nil => simp [sumLens]
  | cons a rest =>
    rw [hl] at h
    simp [hl, h]

/-- Every block emitted by the splitter has non-empty content, and every
block emitted outside the length-cut loop (heading boundary or final flush)
is strictly below the length budget. -/
theorem process_blocks (m lvl : Nat) :
    ∀ (lines : List String) (st : ChunkState),
      st.chunk_content_chars = sumLens st.chunk_lines →
      (st.chunk_lines = [] ∨ st.chunk_marker.length + 1 + st.chunk_content_chars < m) →
      ∀ b ∈ process_lines m lvl lines st,
        b.lines ≠ [] ∧ (b.via_cut = false → b.marker.length + 1 + sumLens b.lines < m) := by
  intro lines
  induction lines with
  | nil =>
    intro st hcc hinv b hb
    rw [show process_lines m lvl [] st =
      (emit_chunk st.segments st.chunk_marker st.chunk_lines false false).1 from rfl] at hb
    cases hl : st.chunk_lines with
    | nil =>
      rw [hl] at hb
      simp [emit_chunk] at hb
    | cons a rest =>
      rw [emit_chunk_ne _ _ _ _ _ (by simp [hl])] at hb
      rw [List.mem_singleton] at hb
      subst hb
      refine ⟨by simp [hl], fun _ => ?_⟩
      cases hinv with
      | inl hnil => rw [hnil] at hl; exact absurd hl (by simp)
      | inr hbound =>
        rw [hcc] at hbound
        exact hbound
  | cons line rest ih =>
    intro st hcc hinv b hb
    rw [process_lines] at hb
    dsimp only at hb
    by_cases hbd : (!st.chunk_lines.isEmpty && isBoundaryHeading line lvl) = true
    · rw [if_pos hbd] at hb
      have hlne : st.chunk_lines ≠ [] := by
        intro hx
        rw [hx] at hbd
        simp at hbd
      rw [emit_chunk_ne _ _ _ _ _ hlne] at hb
      dsimp only at hb
      rw [List.mem_append] at hb
      cases hb with
      | inl hb1 =>
        rw [List.mem_singleton] at hb1
        subst hb1
        refine ⟨hlne, fun _ => ?_⟩
        cases hinv with
        | inl hnil => exact absurd hnil hlne
        | inr hbound => rw [hcc] at hbound; exact hbound
      | inr hb2 =>
        rw [List.mem_append] at hb2
        have hcc2 : (append_line_step lvl (emptyChunkState
            (ingestLines st.segments st.chunk_lines)) line).chunk_content_chars =
            sumLens (append_line_step lvl (emptyChunkState
            (ingestLines st.segments st.chunk_lines)) line).chunk_lines :=
          append_cc_sum lvl _ line (by simp [emptyChunkState, sumLens])
        cases hb2 with
        | inl hbl => exact ⟨(lengthCutLoop_blocks m lvl rest.isEmpty _ b hbl).2,
            fun hvc => absurd (lengthCutLoop_blocks m lvl rest.isEmpty _ b hbl).1
              (by rw [hvc]; simp)⟩
        | inr hbr =>
          exact ih _ (lengthCutLoop_cc m lvl rest.isEmpty _ hcc2)
            (lengthCutLoop_exit m lvl rest.isEmpty _) b hbr
    · rw [if_neg hbd] at hb
      dsimp only at hb
      rw [List.nil_append, List.mem_append] at hb
      have hcc2 : (append_line_step lvl st line).chunk_content_chars =
          sumLens (append_line_step lvl st line).chunk_lines :=
        append_cc_sum lvl st line hcc
      cases hb with
      | inl hbl => exact ⟨(lengthCutLoop_blocks m lvl rest.isEmpty _ b hbl).2,
          fun hvc => absurd (lengthCutLoop_blocks m lvl rest.isEmpty _ b hbl).1
            (by rw [hvc]; simp)⟩
      | inr hbr =>
        exact ih _ (lengthCutLoop_cc m lvl rest.isEmpty _ hcc2)
          (lengthCutLoop_exit m lvl rest.isEmpty _) b hbr

/-- The splitter emits no blocks exactly on empty input with an empty
accumulator. -/
theorem process_nil_iff (m lvl : Nat) :
    ∀ (lines : List String) (st : ChunkState),
      process_lines m lvl lines st = [] ↔ (lines = [] ∧ st.chunk_lines = []) := by
  intro lines
  induction lines with
  | nil =>
    intro st
    rw [show process_lines m lvl [] st =
      (emit_chunk st.segments st.chunk_marker st.chunk_lines false false).1 from rfl]
    cases hl : st.chunk_lines with
    | nil => simp [emit_chunk, hl]
    | cons a rest =>
      rw [emit_chunk_ne _ _ _ _ _ (by simp [hl])]
      simp [hl]
  | cons line rest ih =>
    intro st
    constructor
    · intro hnil
      exfalso
      rw [process_lines] at hnil
      dsimp only at hnil
      rw [List.append_eq_nil, List.append_eq_nil] at hnil
      obtain ⟨h1, h2, h3⟩ := hnil
      have hrec := (ih _).mp h3
      have hcut := lengthCutLoop_contents m lvl rest.isEmpty
        (append_line_step lvl (if !st.chunk_lines.isEmpty && isBoundaryHeading line lvl then
            ((emit_chunk st.segments st.chunk_marker st.chunk_lines true false).1,
              emptyChunkState (emit_chunk st.segments st.chunk_marker st.chunk_lines true false).2)
          else ([], st)).2 line)
      rw [h2, hrec.2, List.flatMap_nil, List.nil_append, append_chunk_lines] at hcut
      exact absurd hcut.symm (by simp)
    · rintro ⟨hfalse, _⟩
      exact absurd hfalse (by simp)

theorem delimsOk_append (xs ys : List Chunk) (hxs : ∀ b ∈ xs, b.delim = true)
    (hne : ys ≠ []) (hys : delimsOk ys = true) : delimsOk (xs ++ ys) = true := by
  induction xs with
  | nil => simpa using hys
  | cons x xs ihx =>
    have hx : x.delim = true := hxs x (by simp)
    have htail : delimsOk (xs ++ ys) = true := ihx (fun b hb => hxs b (by simp [hb]))
    have hne2 : xs ++ ys ≠ [] := by
      intro hc
      rw [List.append_eq_nil] at hc
      exact hne hc.2
    cases hl : xs ++ ys with
    | nil => exact absurd hl hne2
    | cons z zs =>
      rw [List.cons_append, hl]
      show (x.delim && delimsOk (z :: zs)) = true
      have h2 : delimsOk (z :: zs) = true := hl ▸ htail
      rw [hx, h2]
      rfl

/-- Every emitted block except the very last carries its delimiter; the last
one does not. -/
theorem process_delimsOk (m lvl : Nat) :
    ∀ (lines : List String) (st : ChunkState),
      delimsOk (process_lines m lvl lines st) = true := by
  intro lines
  induction lines with
  | nil =>
    intro st
    rw [show process_lines m lvl [] st =
      (emit_chunk st.segments st.chunk_marker st.chunk_lines false false).1 from rfl]
    cases hl : st.chunk_lines with
    | nil => simp [emit_chunk, hl, delimsOk]
    | cons a rest =>
      rw [emit_chunk_ne _ _ _ _ _ (by simp [hl])]
      rfl
  | cons line rest ih =>
    intro st
    rw [process_lines]
    dsimp only
    set stepB := (if !st.chunk_lines.isEmpty && isBoundaryHeading line lvl then
        ((emit_chunk st.segments st.chunk_marker st.chunk_lines true false).1,
          emptyChunkState (emit_chunk st.segments st.chunk_marker st.chunk_lines true false).2)
      else ([], st)) with hstepB
    have hout1 : ∀ b ∈ stepB.1, b.delim = true := by
      rw [hstepB]
      by_cases hbd : (!st.chunk_lines.isEmpty && isBoundaryHeading line lvl) = true
      · rw [if_pos hbd]
        by_cases hln : st.chunk_lines = []
        · simp [emit_chunk, hln]
        · rw [emit_chunk_ne _ _ _ _ _ hln]
          intro b hb
          rw [List.mem_singleton] at hb
          subst hb
          rfl
      · rw [if_neg hbd]
        intro b hb
        simp at hb
    set st2 := append_line_step lvl stepB.2 line with hst2
    have hst2ne : st2.chunk_lines ≠ [] := by
      rw [hst2, append_chunk_lines]
      simp
    cases lengthCutLoop_delims m lvl rest.isEmpty st2 with
    | inl hIH =>
      obtain ⟨hall, himp⟩ := hIH
      have hrecne : process_lines m lvl rest (lengthCutLoop m lvl rest.isEmpty st2).2 ≠ [] := by
        intro hrec
        have hrr := (process_nil_iff m lvl rest _).mp hrec
        cases himp hrr.2 with
        | inl hout2nil =>
          have hcut := lengthCutLoop_contents m lvl rest.isEmpty st2
          rw [hout2nil, hrr.2, List.flatMap_nil, List.nil_append] at hcut
          exact hst2ne hcut.symm
        | inr hlastf =>
          rw [hrr.1] at hlastf
          simp at hlastf
      refine delimsOk_append _ _ hout1 ?_ ?_
      · intro hc
        rw [List.append_eq_nil] at hc
        exact hrecne hc.2
      · exact delimsOk_append _ _ hall hrecne (ih _)
    | inr hIH =>
      obtain ⟨pre, lastb, hout2, hpre, hlb, hchunk, hlast⟩ := hIH
      have hrest : rest = [] := by
        cases hr : rest with
        | nil => rfl
        | cons u v => rw [hr] at hlast; simp at hlast
      have hrecnil : process_lines m lvl rest (lengthCutLoop m lvl rest.isEmpty st2).2 = [] := by
        rw [process_nil_iff]
        exact ⟨hrest, hchunk⟩
      rw [hout2, hrecnil, List.append_nil, ← List.append_assoc]
      refine delimsOk_append _ _ ?_ (by simp) (by rw [show delimsOk [lastb] = !lastb.delim from rfl, hlb]; rfl)
      intro b hb
      rw [List.mem_append] at hb
      cases hb with
      | inl hb1 => exact hout1 b hb1
      | inr hb2 => exact hpre b hb2

/- ------------------------------------------------------------------
Render-level lemmas.
------------------------------------------------------------------ -/

theorem renderChunk_contents (b : Chunk) :
    (renderChunk b).filterMap contentOf = b.lines := by
  unfold renderChunk
  rw [List.filterMap_cons]
  show List.filterMap contentOf (b.lines.map OutLine.content ++
    (if b.delim then [OutLine.delim] else [])) = b.lines
  rw [List.filterMap_append]
  have h1 : List.filterMap contentOf (b.lines.map OutLine.content) = b.lines := by
    rw [List.filterMap_map]
    have hcomp : contentOf ∘ OutLine.content = some := by
      funext x
      rfl
    rw [hcomp, List.filterMap_some]
  have h2 : List.filterMap contentOf (if b.delim then [OutLine.delim] else []) = [] := by
    cases b.delim <;> simp [contentOf]
  rw [h1, h2, List.append_nil]

theorem flatMap_render_contents (bs : List Chunk) :
    (bs.flatMap renderChunk).filterMap contentOf = bs.flatMap Chunk.lines := by
  induction bs with
  | nil => rfl
  | cons b rest ih =>
    rw [List.flatMap_cons, List.flatMap_cons, List.filterMap_append, ih,
      renderChunk_contents]

theorem countP_render_marker (bs : List Chunk) :
    List.countP isMarkerLine (bs.flatMap renderChunk) = bs.length := by
  induction bs with
  | nil => rfl
  | cons b rest ih =>
    rw [List.flatMap_cons, List.countP_append]
    rw [show renderChunk b = OutLine.marker b.marker :: (b.lines.map OutLine.content ++
      (if b.delim then [OutLine.delim] else [])) from rfl]
    rw [List.countP_cons]
    have h1 : List.countP isMarkerLine (b.lines.map OutLine.content) = 0 := by
      rw [List.countP_eq_zero]
      intro x hx
      rw [List.mem_map] at hx
      obtain ⟨y, _, hy⟩ := hx
      subst hy
      simp [isMarkerLine]
    have h2 : List.countP isMarkerLine (if b.delim then [OutLine.delim] else []) = 0 := by
      cases b.delim <;> simp [isMarkerLine]
    rw [List.countP_append, h1, h2]
    simp [isMarkerLine, ih, List.length_cons]
    omega

theorem countP_render_delim (bs : List Chunk) :
    List.countP isDelimLine (bs.flatMap renderChunk) =
      List.countP (fun b => b.delim) bs := by
  induction bs with
  | nil => rfl
  | cons b rest ih =>
    rw [List.flatMap_cons, List.countP_append]
    rw [show renderChunk b = OutLine.marker b.marker :: (b.lines.map OutLine.content ++
      (if b.delim then [OutLine.delim] else [])) from rfl]
    rw [List.countP_cons]
    have h1 : List.countP isDelimLine (b.lines.map OutLine.content) = 0 := by
      rw [List.countP_eq_zero]
      intro x hx
      rw [List.mem_map] at hx
      obtain ⟨y, _, hy⟩ := hx
      subst hy
      simp [isDelimLine]
    have h2 : List.countP isDelimLine (if b.delim then [OutLine.delim] else []) =
        (if b.delim then 1 else 0) := by
      cases b.delim <;> simp [isDelimLine]
    rw [List.countP_append, h1, h2, List.countP_cons]
    simp [isDelimLine, ih]
    cases b.delim with
    | true =>
      simp
      omega
    | false => simp

theorem delimsOk_count (bs : List Chunk) (h : delimsOk bs = true) :
    List.countP (fun b => b.delim) bs = bs.length - 1 := by
  induction bs with
  | nil => rfl
  | cons b rest ih =>
    cases hr : rest with
    | nil =>
      rw [hr] at h
      have hb : b.delim = false := by
        have : (!b.delim) = true := h
        cases hd : b.delim with
        | true => rw [hd] at this; simp at this
        | false => rfl
      simp [List.countP_cons, hb]
    | cons c cs =>
      subst hr
      have hsplit : (b.delim && delimsOk (c :: cs)) = true := h
      rw [Bool.and_eq_true] at hsplit
      rw [List.countP_cons, ih hsplit.2]
      simp [hsplit.1, List.length_cons]

theorem get_append_right_my {α : Type} (l1 l2 : List α) (n : Nat) :
    (l1 ++ l2).get? (l1.length + n) = l2.get? n := by
  induction l1 with
  | nil => simp
  | cons a rest ih =>
    rw [List.cons_append]
    have harith : (a :: rest).length + n = (rest.length + n) + 1 := by
      rw [List.length_cons]
      omega
    rw [harith]
    show (rest ++ l2).get? (rest.length + n) = l2.get? n
    exact ih

theorem get_append_left_my {α : Type} (l1 l2 : List α) (n : Nat) (h : n < l1.length) :
    (l1 ++ l2).get? n = l1.get? n := by
  induction l1 generalizing n with
  | nil => simp at h
  | cons a rest ih =>
    cases n with
    | zero => rfl
    | succ k =>
      rw [List.cons_append]
      show (rest ++ l2).get? k = (a :: rest).get? (k + 1)
      rw [ih k (by simp at h; omega)]
      rfl

/-- In the rendered stream of blocks with non-empty content, every marker
line is immediately followed by a content line. -/
theorem render_marker_followed (bs : List Chunk) (hne : ∀ b ∈ bs, b.lines ≠ []) :
    ∀ (i : Nat) (s : String),
      (bs.flatMap renderChunk).get? i = some (OutLine.marker s) →
      ∃ c, (bs.flatMap renderChunk).get? (i + 1) = some (OutLine.content c) := by
  induction bs with
  | nil => intro i s h; simp at h
  | cons b rest ih =>
    intro i s h
    rw [List.flatMap_cons] at h ⊢
    have hmid : ∀ x ∈ (b.lines.map OutLine.content ++
        (if b.delim then [OutLine.delim] else [])), isMarkerLine x = false := by
      intro x hx
      rw [List.mem_append] at hx
      cases hx with
      | inl hx1 =>
        rw [List.mem_map] at hx1
        obtain ⟨y, _, hy⟩ := hx1
        subst hy
        rfl
      | inr hx2 =>
        cases hd : b.delim with
        | true => rw [hd] at hx2; simp at hx2; subst hx2; rfl
        | false => rw [hd] at hx2; simp at hx2
    cases i with
    | zero =>
      cases hls : b.lines with
      | nil => exact absurd hls (hne b (by simp))
      | cons l0 ltl =>
        refine ⟨l0, ?_⟩
        rw [show renderChunk b ++ rest.flatMap renderChunk =
          OutLine.marker b.marker :: ((b.lines.map OutLine.content ++
            (if b.delim then [OutLine.delim] else [])) ++ rest.flatMap renderChunk) by
            unfold renderChunk; simp]
        show ((b.lines.map OutLine.content ++
          (if b.delim then [OutLine.delim] else [])) ++ rest.flatMap renderChunk).get? 0 =
            some (OutLine.content l0)
        rw [hls]
        rfl
    | succ j =>
      rw [show renderChunk b ++ rest.flatMap renderChunk =
        OutLine.marker b.marker :: ((b.lines.map OutLine.content ++
          (if b.delim then [OutLine.delim] else [])) ++ rest.flatMap renderChunk) by
          unfold renderChunk; simp] at h ⊢
      set mid := b.lines.map OutLine.content ++ (if b.delim then [OutLine.delim] else []) with hmiddef
      have hj : ((mid ++ rest.flatMap renderChunk).get? j) = some (OutLine.marker s) := h
      by_cases hcmp : j < mid.length
      · exfalso
        rw [get_append_left_my _ _ _ hcmp] at hj
        have : OutLine.marker s ∈ mid := List.get?_mem hj
        have := hmid _ this
        simp [isMarkerLine] at this
      · have hge : mid.length ≤ j := by omega
        obtain ⟨k, hk⟩ : ∃ k, j = mid.length + k := ⟨j - mid.length, by omega⟩
        subst hk
        rw [get_append_right_my] at hj
        obtain ⟨c, hc⟩ := ih (fun b2 hb2 => hne b2 (by simp [hb2])) k s hj
        refine ⟨c, ?_⟩
        show ((mid ++ rest.flatMap renderChunk).get? (mid.length + k + 1)) =
          some (OutLine.content c)
        have : mid.length + k + 1 = mid.length + (k + 1) := by omega
        rw [this, get_append_right_my]
        exact hc

/-- Rendering a block with non-empty content yields at most three output
lines per content line. -/
theorem render_length_bound (bs : List Chunk) (hne : ∀ b ∈ bs, b.lines ≠ []) :
    (bs.flatMap renderChunk).length ≤ 3 * (bs.flatMap Chunk.lines).length := by
  induction bs with
  | nil => simp
  | cons b rest ih =>
    rw [List.flatMap_cons, List.flatMap_cons, List.length_append, List.length_append]
    have hb : 1 ≤ b.lines.length := by
      have := hne b (by simp)
      cases hl : b.lines with
      | nil => exact absurd hl this
      | cons x xs => simp [hl]
    have h1 : (renderChunk b).length ≤ 3 * b.lines.length := by
      unfold renderChunk
      rw [List.length_cons, List.length_append, List.length_map]
      cases b.delim <;> simp <;> omega
    have h2 := ih (fun b2 hb2 => hne b2 (by simp [hb2]))
    omega

/- ------------------------------------------------------------------
Marker-rendering refinement (claim C7 machinery).
------------------------------------------------------------------ -/

/-- The two sequential single-character replacements of `sanitize` act like
one character-by-character escape. -/
theorem repl_eq_escape : ∀ cs : List Char,
    replQuote (replBackslash cs) = (cs.map specEscapeChar).flatten := by
  intro cs
  induction cs with
  | nil => rfl
  | cons c rest ih =>
    by_cases hb : c = '\\'
    · subst hb
      show '\\' :: '\\' :: replQuote (replBackslash rest) =
        ('\\' :: '\\' :: []) ++ (rest.map specEscapeChar).flatten
      rw [ih]
      rfl
    · by_cases hq : c = '"'
      · subst hq
        show '\\' :: '"' :: replQuote (replBackslash rest) =
          ('\\' :: '"' :: []) ++ (rest.map specEscapeChar).flatten
        rw [ih]
        rfl
      · have hb' : (c == '\\') = false := beq_eq_false_iff_ne.mpr hb
        have hq' : (c == '"') = false := beq_eq_false_iff_ne.mpr hq
        rw [show replBackslash (c :: rest) = c :: replBackslash rest from by
          rw [show replBackslash (c :: rest) =
            (if c == '\\' then '\\' :: '\\' :: replBackslash rest
             else c :: replBackslash rest) from rfl, hb']
          rfl]
        rw [show replQuote (c :: replBackslash rest) = c :: replQuote (replBackslash rest) from by
          rw [show replQuote (c :: replBackslash rest) =
            (if c == '"' then '\\' :: '"' :: replQuote (replBackslash rest)
             else c :: replQuote (replBackslash rest)) from rfl, hq']
          rfl]
        rw [ih]
        rw [show ((c :: rest).map specEscapeChar).flatten =
          specEscapeChar c ++ (rest.map specEscapeChar).flatten from by
          rw [List.map_cons, List.flatten_cons]]
        rw [show specEscapeChar c = [c] from by
          unfold specEscapeChar
          rw [hb', hq']
          rfl]
        rfl

/-- A whitespace character is escaped to itself. -/
theorem escape_ws {c : Char} (h : isSpaceChar c = true) : specEscapeChar c = [c] := by
  unfold specEscapeChar
  have hb : (c == '\\') = false := by
    cases hx : c == '\\' with
    | true => exact absurd (eq_of_beq hx ▸ h) (by decide)
    | false => rfl
  have hq : (c == '"') = false := by
    cases hx : c == '"' with
    | true => exact absurd (eq_of_beq hx ▸ h) (by decide)
    | false => rfl
  rw [hb, hq]
  rfl

/-- A non-whitespace character escapes to a list starting with a
non-whitespace character. -/
theorem escape_head_nonws {c : Char} (h : isSpaceChar c = false) :
    ∃ d ds, specEscapeChar c = d :: ds ∧ isSpaceChar d = false := by
  unfold specEscapeChar
  by_cases hb : (c == '\\') = true
  · rw [if_pos hb]
    exact ⟨'\\', ['\\'], rfl, by decide⟩
  · rw [if_neg hb]
    by_cases hq : (c == '"') = true
    · rw [if_pos hq]
      exact ⟨'\\', ['"'], rfl, by decide⟩
    · rw [if_neg hq]
      exact ⟨c, [], rfl, h⟩

/-- A non-whitespace character escapes to a list ending with a
non-whitespace character. -/
theorem escape_last_nonws {c : Char} (h : isSpaceChar c = false) :
    ∃ ds d, specEscapeChar c = ds ++ [d] ∧ isSpaceChar d = false := by
  unfold specEscapeChar
  by_cases hb : (c == '\\') = true
  · rw [if_pos hb]
    exact ⟨['\\'], '\\', rfl, by decide⟩
  · rw [if_neg hb]
    by_cases hq : (c == '"') = true
    · rw [if_pos hq]
      exact ⟨['\\'], '"', rfl, by decide⟩
    · rw [if_neg hq]
      exact ⟨[], c, rfl, h⟩

/-- Leading-whitespace removal commutes with escaping. -/
theorem dropWhile_escape : ∀ cs : List Char,
    ((cs.map specEscapeChar).flatten).dropWhile isSpaceChar =
      ((cs.dropWhile isSpaceChar).map specEscapeChar).flatten := by
  intro cs
  induction cs with
  | nil => rfl
  | cons c rest ih =>
    rw [List.map_cons, List.flatten_cons]
    cases hws : isSpaceChar c with
    | true =>
      rw [escape_ws hws]
      rw [show ([c] ++ (rest.map specEscapeChar).flatten) =
        c :: (rest.map specEscapeChar).flatten from rfl]
      rw [List.dropWhile_cons, List.dropWhile_cons, hws]
      simp only [if_true]
      exact ih
    | false =>
      obtain ⟨d, ds, he, hd⟩ := escape_head_nonws hws
      rw [he]
      rw [show ((d :: ds) ++ (rest.map specEscapeChar).flatten) =
        d :: (ds ++ (rest.map specEscapeChar).flatten) from rfl]
      rw [List.dropWhile_cons, List.dropWhile_cons, hd, hws]
      simp only [Bool.false_eq_true, if_false]
      rw [List.map_cons, List.flatten_cons, he]
      rfl

theorem dropTrailing_snoc_ws (xs : List Char) {c : Char} (h : isSpaceChar c = true) :
    dropTrailingWs (xs ++ [c]) = dropTrailingWs xs := by
  unfold dropTrailingWs
  rw [List.reverse_append]
  rw [show ([c].reverse ++ xs.reverse) = c :: xs.reverse from by simp]
  rw [List.dropWhile_cons, h]
  simp only [if_true]

theorem dropTrailing_snoc_nonws (xs : List Char) {c : Char} (h : isSpaceChar c = false) :
    dropTrailingWs (xs ++ [c]) = xs ++ [c] := by
  unfold dropTrailingWs
  rw [List.reverse_append]
  rw [show ([c].reverse ++ xs.reverse) = c :: xs.reverse from by simp]
  rw [List.dropWhile_cons, h]
  simp

/-- Trailing-whitespace removal commutes with escaping. -/
theorem dropTrailing_escape : ∀ cs : List Char,
    dropTrailingWs ((cs.map specEscapeChar).flatten) =
      ((dropTrailingWs cs).map specEscapeChar).flatten := by
  intro cs
  induction cs using List.reverseRecOn with
  | nil => rfl
  | append_singleton xs c ih =>
    rw [List.map_append, List.flatten_append]
    rw [show (([c].map specEscapeChar).flatten) = specEscapeChar c ++ [] from by
      rw [List.map_cons, List.map_nil, List.flatten_cons, List.flatten_nil]]
    rw [List.append_nil]
    cases hws : isSpaceChar c with
    | true =>
      rw [escape_ws hws, dropTrailing_snoc_ws _ hws, dropTrailing_snoc_ws _ hws, ih]
    | false =>
      obtain ⟨ds, d, he, hd⟩ := escape_last_nonws hws
      rw [he, ← List.append_assoc, dropTrailing_snoc_nonws _ hd,
        dropTrailing_snoc_nonws _ hws]
      rw [List.map_append, List.flatten_append]
      rw [show (([c].map specEscapeChar).flatten) = specEscapeChar c ++ [] from by
        rw [List.map_cons, List.map_nil, List.flatten_cons, List.flatten_nil]]
      rw [List.append_nil, he, List.append_assoc]

/-- Python stripping commutes with escaping. -/
theorem pyStripL_escape (cs : List Char) :
    pyStripL ((cs.map specEscapeChar).flatten) =
      ((pyStripL cs).map specEscapeChar).flatten := by
  unfold pyStripL
  rw [dropWhile_escape, dropTrailing_escape]

/-- The quoted-segment text produced by the code equals the quoting rule of
the specification (strip, escape, wrap). -/
theorem sanitize_eq_spec (s : String) :
    "\"" ++ sanitize s ++ "\"" = specQuoteSegment s := by
  unfold sanitize specQuoteSegment pyStrip
  rw [show (String.mk (replQuote (replBackslash s.data))).data =
    replQuote (replBackslash s.data) from rfl]
  rw [repl_eq_escape, pyStripL_escape]

/- ------------------------------------------------------------------
Claim theorems.
------------------------------------------------------------------ -/

/-- C1: no content loss — removing the emitted marker lines and delimiter
lines from the output of `_split_and_prefix` leaves exactly the input lines,
in order, with no duplication or omission, for every input and both
parameters. -/
theorem c1_no_content_loss (lines : List String) (max_chunk_length split_max_level : Nat) :
    (splitOut lines max_chunk_length split_max_level).filterMap contentOf = lines := by
  unfold splitOut
  rw [flatMap_render_contents]
  unfold splitBlocks
  rw [process_contents]
  rfl

/-- C2: delimiter count — the number of emitted delimiter lines equals the
number of emitted chunks (equivalently, marker lines) minus one (zero when
there are no chunks), and positionally every chunk except the last carries
exactly one trailing delimiter while the last carries none. -/
theorem c2_delimiter_count (lines : List String) (max_chunk_length split_max_level : Nat) :
    List.countP isDelimLine (splitOut lines max_chunk_length split_max_level) =
      List.countP isMarkerLine (splitOut lines max_chunk_length split_max_level) - 1 ∧
    delimsOk (splitBlocks lines max_chunk_length split_max_level) = true := by
  have hd := process_delimsOk max_chunk_length split_max_level lines initState
  refine ⟨?_, hd⟩
  unfold splitOut
  rw [countP_render_delim, countP_render_marker]
  exact delimsOk_count _ hd

/-- C3 counterexample: on the two input lines below with
`max_chunk_length = 30`, the splitter emits a chunk with two content lines
whose total length (marker + 1 + content) is 30, which is not below the
budget — refuting the claim that only single-line chunks may exceed it. -/
theorem c3_counterexample :
    ¬ (∀ b ∈ splitBlocks ["aaaaaaaa
", "   
"] 30 3,
        1 < b.lines.length → b.marker.length + 1 + sumLens b.lines < 30) := by
  decide

/-- C3 amended: every chunk emitted outside the length-cut loop (at a
heading boundary or at end of input) satisfies
`marker_length + 1 + content_length < max_chunk_length`; chunks emitted by
the length-cut loop — not only single-line ones — may reach or exceed the
budget. -/
theorem c3_length_bound_amended (lines : List String) (max_chunk_length split_max_level : Nat)
    (b : Chunk) (hb : b ∈ splitBlocks lines max_chunk_length split_max_level)
    (hvc : b.via_cut = false) :
    b.marker.length + 1 + sumLens b.lines < max_chunk_length :=
  (process_blocks max_chunk_length split_max_level lines initState rfl (Or.inl rfl) b hb).2 hvc

/-- C3 witness: the first chunk of the three-chunk scenario is emitted at a
heading boundary and respects the budget. -/
theorem c3_witness :
    ("\x7b data-path = \"Intro\" \x7d").length + 1 + sumLens ["# Intro\n", "body\n"] < 10000 :=
  c3_length_bound_amended
    ["# Intro\n", "body\n", "## Intro Child\n", "more\n", "# Middle\n"] 10000 3
    ⟨"\x7b data-path = \"Intro\" \x7d", ["# Intro\n", "body\n"], true, false⟩
    (by decide) (by rfl)

/-- C5 counterexample: ingesting the single heading line `### T` (level 3)
into a fresh tracker leaves a segment stack of length 1, not 3 — the
truncate-and-append update never pads missing levels. -/
theorem c5_counterexample : (ingestLines [] ["### T\n"]).length ≠ 3 := by
  decide

/-- C5 amended: ingesting a heading line of level L replaces the stack by
`segments[0 : L-1] ++ [trimmed title]`; provided the current stack has at
least L-1 segments (no skipped levels), the resulting length is exactly L,
the first L-1 segments are unchanged and position L-1 holds the new trimmed
title. -/
theorem c5_tracker_invariant_amended (segments : List String) (line : String)
    (level : Nat) (title : String)
    (hm : headingMatch line = some (level, title))
    (hlen : level - 1 ≤ segments.length) :
    ingest_line segments line = segments.take (level - 1) ++ [pyStrip title] ∧
    (ingest_line segments line).length = level ∧
    (ingest_line segments line).take (level - 1) = segments.take (level - 1) ∧
    (ingest_line segments line).get? (level - 1) = some (pyStrip title) := by
  have hpos := (headingMatch_level_pos hm).1
  have he : ingest_line segments line = segments.take (level - 1) ++ [pyStrip title] := by
    unfold ingest_line
    rw [hm]
  have htk : (segments.take (level - 1)).length = level - 1 := by
    rw [List.length_take]
    omega
  refine ⟨he, ?_, ?_, ?_⟩
  · rw [he, List.length_append, htk]
    simp only [List.length_singleton]
    omega
  · rw [he]
    have h3 : (segments.take (level - 1) ++ [pyStrip title]).take (level - 1) =
        segments.take (level - 1) := by
      have h4 := List.take_left (segments.take (level - 1)) [pyStrip title]
      rw [htk] at h4
      exact h4
    rw [h3]
  · rw [he]
    have h5 := get_append_right_my (segments.take (level - 1)) [pyStrip title] 0
    rw [Nat.add_zero] at h5
    rw [htk] at h5
    rw [h5]
    rfl

/-- C5 witness: ingesting a level-2 heading with two segments on the
stack. -/
theorem c5_witness :
    ingest_line ["A", "B"] "## New\n" = (["A", "B"].take 1) ++ [pyStrip "New"] ∧
    (ingest_line ["A", "B"] "## New\n").length = 2 ∧
    (ingest_line ["A", "B"] "## New\n").take 1 = ["A", "B"].take 1 ∧
    (ingest_line ["A", "B"] "## New\n").get? 1 = some (pyStrip "New") :=
  c5_tracker_invariant_amended ["A", "B"] "## New\n" 2 "New" (by rfl) (by decide)

/-- C6: the three-chunk scenario — markers `Intro`, `Intro > Intro Child`
and `Middle`, two delimiter lines between the chunks, none after the
last. -/
theorem c6_three_chunk_scenario :
    split_and_prefix' ["# Intro\n", "body\n", "## Intro Child\n", "more\n", "# Middle\n"]
      10000 3 =
    ["\x7b data-path = \"Intro\" \x7d\n", "# Intro\n", "body\n",
     "---DIFY-CHUNK---\n",
     "\x7b data-path = \"Intro\" > \"Intro Child\" \x7d\n", "## Intro Child\n", "more\n",
     "---DIFY-CHUNK---\n",
     "\x7b data-path = \"Middle\" \x7d\n", "# Middle\n"] := by
  rfl

/-- C7: marker rendering — for every tracker state and first line the
rendered marker is exactly the specification string: segments (adjusted for
a heading first line) stripped, escaped (backslash doubled, double quote
backslash-escaped), wrapped in double quotes, joined by arrow separators
between the fixed prefix and suffix; an empty segment list leaves two
spaces between the equals sign and the closing brace. -/
theorem c7_marker_rendering :
    (∀ (segments : List String) (first_line : String),
      current_marker segments first_line =
        specMarkerRender (adjustSegments segments first_line)) ∧
    specMarkerRender [] = "\x7b data-path =  \x7d" := by
  constructor
  · intro segments first_line
    unfold current_marker specMarkerRender
    have hfun : (fun seg => "\"" ++ sanitize seg ++ "\"") = specQuoteSegment :=
      funext sanitize_eq_spec
    rw [hfun]
  · rfl

/-- C8: a heading deeper than `split_max_level` neither triggers the
heading boundary nor records a heading cut point, but still updates the
breadcrumb stack. -/
theorem c8_deep_heading (line : String) (level : Nat) (title : String)
    (split_max_level : Nat)
    (hm : headingMatch line = some (level, title)) (hdeep : split_max_level < level) :
    isBoundaryHeading line split_max_level = false ∧
    (∀ st : ChunkState, st.chunk_lines ≠ [] →
      (append_line_step split_max_level st line).last_heading_idx = st.last_heading_idx) ∧
    (∀ segments : List String,
      ingest_line segments line = segments.take (level - 1) ++ [pyStrip title]) := by
  have hbound : isBoundaryHeading line split_max_level = false := by
    unfold isBoundaryHeading
    rw [hm]
    simp only [decide_eq_false_iff_not]
    omega
  refine ⟨hbound, ?_, ?_⟩
  · intro st hne
    have hie : st.chunk_lines.isEmpty = false := by
      cases hl : st.chunk_lines with
      | nil => exact absurd hl hne
      | cons a b => rfl
    rw [append_lh, hbound, hie]
    simp
  · intro segments
    unfold ingest_line
    rw [hm]

/-- C8 witness: a level-4 heading with `split_max_level = 3`. -/
theorem c8_witness :
    isBoundaryHeading "#### Deep\n" 3 = false ∧
    (append_line_step 3 ⟨[], ["x\n"], "marker", 2, none, none, none⟩ "#### Deep\n").last_heading_idx = none ∧
    ingest_line ["A"] "#### Deep\n" = ["A"].take 3 ++ [pyStrip "Deep"] := by
  have h := c8_deep_heading "#### Deep\n" 4 "Deep" 3 (by rfl) (by decide)
  exact ⟨h.1, h.2.1 ⟨[], ["x\n"], "marker", 2, none, none, none⟩ (by decide), h.2.2 ["A"]⟩

/-- C9: totality and resource bound — the splitter always terminates (it is
a total function in this development) and its output line count is bounded
by three times the input line count; the single 50-character line with
`max_chunk_length = 10` is emitted unmodified as one chunk with no
delimiter. -/
theorem c9_termination_totality :
    (∀ (lines : List String) (max_chunk_length split_max_level : Nat),
      (splitOut lines max_chunk_length split_max_level).length ≤ 3 * lines.length) ∧
    split_and_prefix' [String.mk (List.replicate 50 'a')] 10 3 =
      ["\x7b data-path =  \x7d\n", String.mk (List.replicate 50 'a')] := by
  constructor
  · intro lines m lvl
    have hb := render_length_bound (splitBlocks lines m lvl)
      (fun b hbm => (process_blocks m lvl lines initState rfl (Or.inl rfl) b hbm).1)
    have hc : (splitBlocks lines m lvl).flatMap Chunk.lines = lines := by
      unfold splitBlocks
      rw [process_contents]
      rfl
    rw [hc] at hb
    exact hb
  · rfl

/-- C10: no empty chunks — every marker line in the output is immediately
followed by a content line (never by a delimiter, another marker, or the end
of the stream), and the empty input produces empty output. -/
theorem c10_no_empty_chunks (lines : List String) (max_chunk_length split_max_level : Nat) :
    (∀ (i : Nat) (s : String),
      (splitOut lines max_chunk_length split_max_level).get? i = some (OutLine.marker s) →
      ∃ c, (splitOut lines max_chunk_length split_max_level).get? (i + 1) =
        some (OutLine.content c)) ∧
    splitOut [] max_chunk_length split_max_level = [] := by
  constructor
  · exact render_marker_followed _
      (fun b hb => (process_blocks max_chunk_length split_max_level lines initState rfl
        (Or.inl rfl) b hb).1)
  · rfl

/-- C10 witness: in a one-line document the marker at position zero is
followed by the content line. -/
theorem c10_witness :
    ∃ c, (splitOut ["hello\n"] 100 3).get? (0 + 1) = some (OutLine.content c) :=
  (c10_no_empty_chunks ["hello\n"] 100 3).1 0 "\x7b data-path =  \x7d" (by rfl)

/-- Under consistent bookkeeping the coded cut-point selection equals the
declarative priority: heading, then blank, then non-indented, then the whole
chunk. -/
theorem codeCut_eq_spec (split_max_level : Nat) (st : ChunkState)
    (hcons : Consistent split_max_level st) :
    codeCutIdx st = specCutIdx split_max_level st.chunk_lines := by
  obtain ⟨_, hlb, hlh, hln⟩ := hcons
  unfold codeCutIdx specCutIdx
  rw [hlb, hlh, hln]
  cases hh : specLastHeading split_max_level st.chunk_lines with
  | some i =>
    have hi : 0 < i := specLastHeading_pos hh
    rw [show optGtZero (some i) = decide (0 < i) from rfl]
    rw [decide_eq_true hi]
    simp
  | none =>
    rw [show optGtZero none = false from rfl]
    simp only [Bool.false_eq_true, if_false]
    cases hb : specLastBlank st.chunk_lines with
    | some j => simp
    | none =>
      simp only [Option.isSome_none, Bool.false_eq_true, if_false]
      cases hn : specLastNonindent st.chunk_lines with
      | some k =>
        have hk : 0 < k := specLastNonindent_pos hn
        rw [show optGtZero (some k) = decide (0 < k) from rfl]
        rw [decide_eq_true hk]
        simp
      | none =>
        rw [show optGtZero none = false from rfl]
        simp

/-- C4: cut-point priority — (i) the per-line bookkeeping keeps the tracked
cut-point indices equal to the declarative "most recent" values after every
append, and (ii) whenever the accumulated chunk reaches or exceeds the
budget, the length-cut loop emits exactly the prefix up to the first
applicable cut point (heading just before it; blank at and including it;
non-indented just before it; else the whole chunk), hands the remainder a
from-scratch recomputation of marker, character count and indices over the
remaining lines, and repeats the length check on it. -/
theorem c4_cut_point_priority :
    (∀ (split_max_level : Nat) (st : ChunkState) (line : String),
      Consistent split_max_level st →
      Consistent split_max_level (append_line_step split_max_level st line)) ∧
    (∀ (max_chunk_length split_max_level : Nat) (is_last_line : Bool) (st : ChunkState),
      Consistent split_max_level st →
      st.chunk_lines ≠ [] →
      max_chunk_length ≤ st.chunk_marker.length + 1 + st.chunk_content_chars →
      lengthCutLoop max_chunk_length split_max_level is_last_line st =
        (let cut := specCutIdx split_max_level st.chunk_lines
         let left_lines := st.chunk_lines.take (cut + 1)
         let right_lines := st.chunk_lines.drop (cut + 1)
         let segs' := ingestLines st.segments left_lines
         let st' : ChunkState :=
           { segments := segs', chunk_lines := right_lines,
             chunk_marker := match right_lines with
               | [] => ""
               | first :: _ => current_marker segs' first,
             chunk_content_chars := sumLens right_lines,
             last_blank_idx := specLastBlank right_lines,
             last_heading_idx := specLastHeading split_max_level right_lines,
             last_nonindent_idx := specLastNonindent right_lines }
         let r := lengthCutLoop max_chunk_length split_max_level is_last_line st'
         (⟨st.chunk_marker, left_lines, (!right_lines.isEmpty || !is_last_line), true⟩ :: r.1,
          r.2))) := by
  constructor
  · exact append_preserves_consistent
  · intro m lvl last st hcons hne hover
    have hcut := codeCut_eq_spec lvl st hcons
    cases hl : st.chunk_lines with
    | nil => exact absurd hl hne
    | cons a rest =>
      have hlen1 : st.chunk_lines.length = rest.length + 1 := by
        rw [hl, List.length_cons]
      have hie : st.chunk_lines.isEmpty = false := by
        rw [hl]
        rfl
      have hnlt : ¬ st.chunk_marker.length + 1 + st.chunk_content_chars < m := by
        omega
      unfold lengthCutLoop
      rw [hlen1, lengthCutLoopAux_step m lvl last rest.length st hie hnlt]
      dsimp only
      rw [hcut]
      have hlne : st.chunk_lines.take (specCutIdx lvl st.chunk_lines + 1) ≠ [] :=
        take_succ_ne (by rw [hl]; simp) _
      rw [emit_chunk_ne _ _ _ _ _ hlne]
      dsimp only
      rw [recompute_eq_spec]
      have hrlen : (st.chunk_lines.drop (specCutIdx lvl st.chunk_lines + 1)).length ≤
          rest.length := by
        rw [List.length_drop, hlen1]
        omega
      rw [lengthCutLoopAux_fuel m lvl last rest.length
        ((st.chunk_lines.drop (specCutIdx lvl st.chunk_lines + 1)).length) _
        (by exact hrlen)
        (by exact Nat.le_refl _)]
      rw [hl]
      rfl

/-- C4 witness: the over-budget two-line state with a blank second line cuts
at the blank line (no eligible heading), emitting both lines and leaving an
empty remainder. -/
theorem c4_witness :
    lengthCutLoop 30 3 true
      ⟨[], ["aaaaaaaa\n", "   \n"], "\x7b data-path =  \x7d", 13, some 1, none, none⟩ =
      ([⟨"\x7b data-path =  \x7d", ["aaaaaaaa\n", "   \n"], false, true⟩],
        emptyChunkState []) := by
  have h := c4_cut_point_priority.2 30 3 true
    ⟨[], ["aaaaaaaa\n", "   \n"], "\x7b data-path =  \x7d", 13, some 1, none, none⟩
    ⟨by decide, by decide, by decide, by decide⟩ (by decide) (by decide)
  rw [h]
  rfl

end KBSplit
